import Mathlib

/-!
Wavefront propagation over an occupancy grid (`grid.cc`).

A shallow embedding of the class `Map` of `grid.cc` and of its wavefront
(grassfire) search, together with the properties proved about it.

Modelling conventions.

* `map_` (a `vector<vector<double>>` that only ever holds integer values) and
  `wave_` (a `vector<vector<int>>`) are lists of rows of integers.  A cell is
  Free when its `map_` value is `0`, the value `propagate_wave` tests.
* An index expression `v[r][c]` on a negative or too large index is undefined
  behaviour in the source; here such an access makes the enclosing function
  return `none` (`Outcome.outOfBounds` for `wavefront`).
* The `int` ring counter is an unbounded integer: it grows by one per
  iteration of the loop, which runs at most two times more than there are
  cells holding `0` in `wave_` (`wavefrontLoop_budget`).
* `perimeter` / `frontier` (heap arrays with a separate `size`) are lists, the
  size being the length of the list.  The frontier array has
  `DIRECTIONS * size` slots; a write past them is undefined in the source and
  makes `propagate_wave` return `none`.
* `Point2D` is a pair of doubles which `cast_point` truncates; the embedding of
  `wavefront` starts from the two truncated points.
* `char` is a signed 8-bit type, the reading under which the byte 255 loads
  as a Free cell; `static_cast<char>` keeps an integer value modulo 256.  In
  `output_wavefront` the `int` product wraps around at 32 bits and `float` is
  IEEE binary32 with round to nearest, ties to even.
* The `while` loop of `wavefront` carries an iteration budget so that the
  definition is structurally recursive; `wavefront` supplies a budget that is
  proved never to run out (`wavefront_budget_suffices`).
-/

namespace Grid

/-! ## Constants and data -/

/-- Constant `DIRECTIONS` of the source. -/
def DIRECTIONS : Nat := 8

/-- Constant `ADJ` of the source: side of the scanned window. -/
def ADJ : Nat := 3

/-- Struct `PointXY`: integer cell coordinates, `x_` the column, `y_` the row. -/
structure PointXY where
  x_ : Int
  y_ : Int
deriving DecidableEq

/-- The two private members of class `Map`. -/
structure Map where
  map_ : List (List Int)
  wave_ : List (List Int)
deriving DecidableEq

/-- Read of `g[r][c]`; `none` when the index leaves the vector. -/
def cellAt (g : List (List Int)) (r c : Int) : Option Int :=
  if 0 ≤ r ∧ 0 ≤ c then
    match g[r.toNat]? with
    | none => none
    | some row => row[c.toNat]?
  else none

/-- Write `g[r][c] = v`; `none` when the index leaves the vector. -/
def setAt (g : List (List Int)) (r c : Int) (v : Int) : Option (List (List Int)) :=
  if 0 ≤ r ∧ 0 ≤ c then
    match g[r.toNat]? with
    | none => none
    | some row =>
      if c.toNat < row.length then some (g.set r.toNat (row.set c.toNat v)) else none
  else none

/-- Value `map_[p.y_][p.x_]`. -/
def Map.mapAt (s : Map) (p : PointXY) : Option Int := cellAt s.map_ p.y_ p.x_

/-- Value `wave_[p.y_][p.x_]`. -/
def Map.waveAt (s : Map) (p : PointXY) : Option Int := cellAt s.wave_ p.y_ p.x_

/-! ## `Map::propagate_wave` -/

/-- Lines 161-164: the test and the two writes for the cell `(r, c)`.  The
frontier array has `cap` slots (line 156); the write `frontier[iter++]` of a
cell when `iter` has reached `cap` leaves the array, which is undefined in the
source and `none` here. -/
def visitCell (cap : Nat) (gradient : Int) (cell : PointXY) (st : Map × List PointXY) :
    Option (Map × List PointXY) :=
  match cellAt st.1.map_ cell.y_ cell.x_ with
  | none => none
  | some m =>
    if m = 0 then
      match cellAt st.1.wave_ cell.y_ cell.x_ with
      | none => none
      | some w =>
        if w = 0 then
          if st.2.length < cap then
            match setAt st.1.wave_ cell.y_ cell.x_ gradient with
            | none => none
            | some wv => some (Map.mk st.1.map_ wv, st.2 ++ [cell])
          else none
        else some st
    else some st

/-- The cell `(r, c)` of lines 159-160 for perimeter member `p` and index `i`. -/
def windowCell (p : PointXY) (i : Nat) : PointXY :=
  PointXY.mk ((p.x_ - 1) + ((i % ADJ : Nat) : Int)) ((p.y_ - 1) + ((i / ADJ : Nat) : Int))

/-- Inner `for` loop (line 158) over the remaining indices `i`. -/
def scanWindow (cap : Nat) (gradient : Int) (p : PointXY) :
    List Nat → Map × List PointXY → Option (Map × List PointXY)
  | [], st => some st
  | i :: rest, st =>
    match visitCell cap gradient (windowCell p i) st with
    | none => none
    | some st1 => scanWindow cap gradient p rest st1

/-- Outer `for` loop (line 157) over the remaining perimeter members. -/
def scanPerimeter (cap : Nat) (gradient : Int) :
    List PointXY → Map × List PointXY → Option (Map × List PointXY)
  | [], st => some st
  | p :: rest, st =>
    match scanWindow cap gradient p (List.range (ADJ * ADJ)) st with
    | none => none
    | some st1 => scanPerimeter cap gradient rest st1

/-- `Map::propagate_wave`: returns the new state and the frontier; the value
written back to `size` is the length of the frontier.  The frontier array is
allocated with `DIRECTIONS * size` slots, `size` being the length of the
perimeter; the result is `none` when an index leaves `map_`, `wave_` or the
frontier array. -/
def propagate_wave (s : Map) (perimeter : List PointXY) (gradient : Int) :
    Option (Map × List PointXY) :=
  scanPerimeter (DIRECTIONS * perimeter.length) gradient perimeter (s, [])

/-! ## `Map::wavefront` and its helpers -/

/-- `Map::swap_waves`: the new perimeter holds the first `size` frontier cells. -/
def swap_waves (frontier : List PointXY) (size : Nat) : List PointXY :=
  frontier.take size

/-- `Map::goal_reached`. -/
def goal_reached : List PointXY → PointXY → Bool
  | [], _ => false
  | p :: rest, goal =>
    if p.x_ = goal.x_ ∧ p.y_ = goal.y_ then true else goal_reached rest goal

/-- `Map::goal_unreachable`. -/
def goal_unreachable (perimeter_size : Nat) : Bool :=
  if perimeter_size = 0 then true else false

/-- Result of a run of `wavefront`: the returned `int` with the final state, or
an index out of range (of `map_`, of `wave_` or of the frontier array), or the
iteration budget exhausted. -/
inductive Outcome where
  | returned (value : Int) (s : Map)
  | outOfBounds
  | outOfFuel
deriving DecidableEq

/-- The `while` loop of `Map::wavefront` (lines 204-212), at most `fuel`
iterations. -/
def wavefrontLoop (plyr : PointXY) : Nat → Map → List PointXY → Int → Outcome
  | 0, s, perim, gradient =>
    if goal_reached perim plyr then Outcome.returned gradient s else Outcome.outOfFuel
  | fuel + 1, s, perim, gradient =>
    if goal_reached perim plyr then Outcome.returned gradient s
    else
      match propagate_wave s perim (gradient + 1) with
      | none => Outcome.outOfBounds
      | some (s1, frontier) =>
        if goal_unreachable perim.length then Outcome.returned (-1) s1
        else wavefrontLoop plyr fuel s1 (swap_waves frontier frontier.length) (gradient + 1)

/-- Number of cells of a grid that hold `0`. -/
def zeroCount (g : List (List Int)) : Nat :=
  (g.map (fun row => row.count 0)).sum

/-- `Map::wavefront` on the truncated points `player` and `destination`. -/
def wavefront (s : Map) (player destination : PointXY) : Outcome :=
  match setAt s.wave_ destination.y_ destination.x_ 1 with
  | none => Outcome.outOfBounds
  | some wv =>
    wavefrontLoop player (zeroCount wv + 2) (Map.mk s.map_ wv)
      [PointXY.mk destination.x_ destination.y_] 1

/-- The returned `int` of a run, when there is one. -/
def Outcome.value? : Outcome → Option Int
  | Outcome.returned v _ => some v
  | _ => none

/-- The final state of a run, when there is one. -/
def Outcome.state? : Outcome → Option Map
  | Outcome.returned _ s => some s
  | _ => none

/-! ## Vocabulary of the specification -/

/-- A cell is Free: it is a valid index of `map_` and holds `0`. -/
def Map.isFree (s : Map) (p : PointXY) : Prop := s.mapAt p = some 0

instance (s : Map) (p : PointXY) : Decidable (s.isFree p) := by
  unfold Map.isFree; infer_instance

/-- Cell `x` lies in the 3x3 window scanned around `p` (the cell `p` included). -/
def inWindow (p x : PointXY) : Prop :=
  |x.x_ - p.x_| ≤ 1 ∧ |x.y_ - p.y_| ≤ 1

instance (p x : PointXY) : Decidable (inWindow p x) := by
  unfold inWindow; infer_instance

/-- One 8-connected unit move: `b` is one of the eight neighbours of `a`. -/
def adjacent8 (a b : PointXY) : Prop := a ≠ b ∧ inWindow a b

instance (a b : PointXY) : Decidable (adjacent8 a b) := by
  unfold adjacent8; infer_instance

/-- The list `path` is an 8-connected path from `a` to `b` through Free cells. -/
def FreePath (s : Map) (a b : PointXY) (path : List PointXY) : Prop :=
  path.head? = some a ∧ path.getLast? = some b ∧
    List.Chain' adjacent8 path ∧ ∀ p ∈ path, s.isFree p

/-- Some 8-connected path through Free cells joins `a` and `b`. -/
def Connected (s : Map) (a b : PointXY) : Prop := ∃ path, FreePath s a b path

/-- The minimum number of 8-connected unit moves from `a` to `b` through Free
cells is `n` (a path of `n` moves visits `n + 1` cells). -/
def MinMoves (s : Map) (a b : PointXY) (n : Nat) : Prop :=
  (∃ path, FreePath s a b path ∧ path.length = n + 1) ∧
    ∀ path, FreePath s a b path → n + 1 ≤ path.length

/-- Number of rows of the grid. -/
def Map.height (s : Map) : Nat := s.map_.length

/-- Number of columns of the grid (length of the first row). -/
def Map.width (s : Map) : Nat := (s.map_.headD []).length

/-- The grid is rectangular and `wave_` has the shape of `map_`, as built by
`Map::read`. -/
def Map.Rectangular (s : Map) : Prop :=
  (∀ row ∈ s.map_, row.length = s.width) ∧ s.wave_.length = s.height ∧
    ∀ row ∈ s.wave_, row.length = s.width

instance (s : Map) : Decidable s.Rectangular := by
  unfold Map.Rectangular; infer_instance

/-- The gradient grid is all-zero, as built by `Map::read`. -/
def Map.ZeroGradient (s : Map) : Prop := ∀ row ∈ s.wave_, ∀ v ∈ row, v = 0

instance (s : Map) : Decidable s.ZeroGradient := by
  unfold Map.ZeroGradient; infer_instance

/-- Every cell of the first and last row and of the first and last column is
an Obstacle (not Free). -/
def Map.BorderObstacle (s : Map) : Prop :=
  ∀ r < s.height, ∀ c < s.width,
    (r = 0 ∨ r + 1 = s.height ∨ c = 0 ∨ c + 1 = s.width) →
      cellAt s.map_ (r : Int) (c : Int) ≠ some 0

instance (s : Map) : Decidable s.BorderObstacle := by
  unfold Map.BorderObstacle; infer_instance

/-- Every index of the 3x3 window around `p` is a valid index of `map_` and of
`wave_`. -/
def Map.WindowInBounds (s : Map) (p : PointXY) : Prop :=
  ∀ i < ADJ * ADJ, (s.mapAt (windowCell p i)).isSome ∧ (s.waveAt (windowCell p i)).isSome

instance (s : Map) (p : PointXY) : Decidable (s.WindowInBounds p) := by
  unfold Map.WindowInBounds; infer_instance

/-- Every cell with gradient greater than `0` is Free. -/
def Map.LabeledFree (s : Map) : Prop :=
  ∀ p v, s.waveAt p = some v → 0 < v → s.isFree p

/-- Cell `x` can be reached from `a` by `n` steps, each inside the 3x3 window of
the previous cell and onto a Free cell. -/
inductive Reach (s : Map) (a : PointXY) : Nat → PointXY → Prop
  | start : s.isFree a → Reach s a 0 a
  | step {n : Nat} {y x : PointXY} :
      Reach s a n y → inWindow y x → s.isFree x → Reach s a (n + 1) x

/-- The cells scanned by `propagate_wave`, in scan order. -/
def windowCells (perimeter : List PointXY) : List PointXY :=
  perimeter.flatMap (fun p => (List.range (ADJ * ADJ)).map (windowCell p))

/-- The test and the two writes of lines 161-164 without the bound of the
frontier array: `visitCell` with unlimited capacity. -/
def labelCell (gradient : Int) (cell : PointXY) (st : Map × List PointXY) :
    Option (Map × List PointXY) :=
  match cellAt st.1.map_ cell.y_ cell.x_ with
  | none => none
  | some m =>
    if m = 0 then
      match cellAt st.1.wave_ cell.y_ cell.x_ with
      | none => none
      | some w =>
        if w = 0 then
          match setAt st.1.wave_ cell.y_ cell.x_ gradient with
          | none => none
          | some wv => some (Map.mk st.1.map_ wv, st.2 ++ [cell])
        else some st
    else some st

/-- The scan of `propagate_wave` over an explicit list of cells, without the
bound of the frontier array. -/
def visitAll (gradient : Int) :
    List PointXY → Map × List PointXY → Option (Map × List PointXY)
  | [], st => some st
  | x :: rest, st =>
    match labelCell gradient x st with
    | none => none
    | some st1 => visitAll gradient rest st1

/-- The result `r` of a scan, kept when its frontier fits `cap` slots. -/
def fitsWithin (cap : Nat) (r : Map × List PointXY) : Option (Map × List PointXY) :=
  if r.2.length ≤ cap then some r else none

/-- Cell `x` passes the test of line 161: it is Free and its gradient is `0`. -/
def Map.Fresh (s : Map) (x : PointXY) : Prop := s.mapAt x = some 0 ∧ s.waveAt x = some 0

instance (s : Map) (x : PointXY) : Decidable (s.Fresh x) := by
  unfold Map.Fresh; infer_instance

/-- The states of one run of the `while` loop of `wavefront`: the state on
entry and the state after each call of `propagate_wave`, in order. -/
def ringStates (plyr : PointXY) : Nat → Map → List PointXY → Int → List Map
  | 0, s, _, _ => [s]
  | fuel + 1, s, perim, gradient =>
    if goal_reached perim plyr then [s]
    else
      match propagate_wave s perim (gradient + 1) with
      | none => [s]
      | some (s1, frontier) =>
        if goal_unreachable perim.length then [s, s1]
        else s :: ringStates plyr fuel s1 (swap_waves frontier frontier.length) (gradient + 1)

/-- The states of the gradient grid during the ring expansions of one run of
`wavefront`: the state on entry to the loop (after the write of line 201) and
the state after each call of `propagate_wave`. -/
def wavefrontStates (s : Map) (player destination : PointXY) : List Map :=
  match setAt s.wave_ destination.y_ destination.x_ 1 with
  | none => []
  | some wv =>
    ringStates player (zeroCount wv + 2) (Map.mk s.map_ wv)
      [PointXY.mk destination.x_ destination.y_] 1

/-- A gradient that is non-zero in `s` is the same in `t`. -/
def Map.KeepsLabels (s t : Map) : Prop :=
  ∀ x v, s.waveAt x = some v → v ≠ 0 → t.waveAt x = some v

/-- Invariant of the `while` loop of `wavefront` on entry to the iteration with
`gradient = n + 1`, for a search that started from the Free cell `a` on an
all-zero gradient: the labelled cells are the cells within `n` steps of `a`,
each labelled with one more than its step distance, and the perimeter holds
the cells labelled `n + 1`. -/
structure RingInv (s0 : Map) (a : PointXY) (n : Nat) (s : Map) (perim : List PointXY) :
    Prop where
  map_eq : s.map_ = s0.map_
  defined : ∀ x, (s0.mapAt x).isSome → (s.waveAt x).isSome
  sound : ∀ x v, s.waveAt x = some v → v ≠ 0 →
    ∃ k : Nat, k ≤ n ∧ v = (k : Int) + 1 ∧ Reach s0 a k x ∧ ∀ j < k, ¬ Reach s0 a j x
  complete : ∀ x, Reach s0 a n x → ∃ v, s.waveAt x = some v ∧ v ≠ 0
  perim_iff : ∀ x, x ∈ perim ↔ s.waveAt x = some ((n : Int) + 1)

/-! ## Small grids used as examples -/

/-- A 4x4 grid: an Obstacle border around a 2x2 block of Free cells. -/
def demoRoom : Map :=
  Map.mk [[1, 1, 1, 1], [1, 0, 0, 1], [1, 0, 0, 1], [1, 1, 1, 1]]
    [[0, 0, 0, 0], [0, 0, 0, 0], [0, 0, 0, 0], [0, 0, 0, 0]]

/-- A 5x5 grid: an Obstacle border, and a full-width Obstacle wall (row 2)
between two rows of three Free cells. -/
def demoWall : Map :=
  Map.mk [[1, 1, 1, 1, 1], [1, 0, 0, 0, 1], [1, 1, 1, 1, 1], [1, 0, 0, 0, 1], [1, 1, 1, 1, 1]]
    [[0, 0, 0, 0, 0], [0, 0, 0, 0, 0], [0, 0, 0, 0, 0], [0, 0, 0, 0, 0], [0, 0, 0, 0, 0]]

/-- A 3x3 grid without any Free cell. -/
def demoSolid : Map :=
  Map.mk [[1, 1, 1], [1, 1, 1], [1, 1, 1]] [[0, 0, 0], [0, 0, 0], [0, 0, 0]]

/-- A 4x4 grid of Free cells only. -/
def demoField : Map :=
  Map.mk [[0, 0, 0, 0], [0, 0, 0, 0], [0, 0, 0, 0], [0, 0, 0, 0]]
    [[0, 0, 0, 0], [0, 0, 0, 0], [0, 0, 0, 0], [0, 0, 0, 0]]

/-- The state in which `wavefront` leaves `demoRoom` for goal `(1,1)` when the
whole room has been labelled. -/
def demoRoomDone : Map :=
  Map.mk [[1, 1, 1, 1], [1, 0, 0, 1], [1, 0, 0, 1], [1, 1, 1, 1]]
    [[0, 0, 0, 0], [0, 1, 2, 0], [0, 2, 2, 0], [0, 0, 0, 0]]

/-- The state of `demoRoom` on entry to the loop of `wavefront` for goal `(1,1)`:
the goal has gradient `1`. -/
def demoRoomStart : Map :=
  Map.mk [[1, 1, 1, 1], [1, 0, 0, 1], [1, 0, 0, 1], [1, 1, 1, 1]]
    [[0, 0, 0, 0], [0, 1, 0, 0], [0, 0, 0, 0], [0, 0, 0, 0]]

/-- The grid `demoField` with the two cells `(1,1)` and `(2,2)` labelled `1`. -/
def demoFieldPair : Map :=
  Map.mk [[0, 0, 0, 0], [0, 0, 0, 0], [0, 0, 0, 0], [0, 0, 0, 0]]
    [[0, 0, 0, 0], [0, 1, 0, 0], [0, 0, 1, 0], [0, 0, 0, 0]]

/-- The grid `demoField` with the corner cell `(3,3)` labelled `4`. -/
def demoFieldMarked : Map :=
  Map.mk [[0, 0, 0, 0], [0, 0, 0, 0], [0, 0, 0, 0], [0, 0, 0, 0]]
    [[0, 0, 0, 0], [0, 0, 0, 0], [0, 0, 0, 0], [0, 0, 0, 4]]

/-- The state in which `wavefront` leaves `demoSolid` for goal `(1,1)`. -/
def demoSolidDone : Map :=
  Map.mk [[1, 1, 1], [1, 1, 1], [1, 1, 1]] [[0, 0, 0], [0, 1, 0], [0, 0, 0]]

/-- The 5x5 scenario inside a one-cell Obstacle border (7x7): all Free except
a full-width wall across the third row with a gap in its middle column. -/
def scenarioGap : Map :=
  Map.mk
    [[1, 1, 1, 1, 1, 1, 1], [1, 0, 0, 0, 0, 0, 1], [1, 0, 0, 0, 0, 0, 1],
      [1, 1, 1, 0, 1, 1, 1], [1, 0, 0, 0, 0, 0, 1], [1, 0, 0, 0, 0, 0, 1],
      [1, 1, 1, 1, 1, 1, 1]]
    [[0, 0, 0, 0, 0, 0, 0], [0, 0, 0, 0, 0, 0, 0], [0, 0, 0, 0, 0, 0, 0],
      [0, 0, 0, 0, 0, 0, 0], [0, 0, 0, 0, 0, 0, 0], [0, 0, 0, 0, 0, 0, 0],
      [0, 0, 0, 0, 0, 0, 0]]

/-- The 3x3 scenario inside a one-cell Obstacle border (5x5): all Free except
the centre cell. -/
def scenarioPillar : Map :=
  Map.mk [[1, 1, 1, 1, 1], [1, 0, 0, 0, 1], [1, 0, 1, 0, 1], [1, 0, 0, 0, 1], [1, 1, 1, 1, 1]]
    [[0, 0, 0, 0, 0], [0, 0, 0, 0, 0], [0, 0, 0, 0, 0], [0, 0, 0, 0, 0], [0, 0, 0, 0, 0]]

/-! ## `Map::read` and `Map::output_wavefront`, cell by cell -/

/-- Constant `COLOR_FACTOR` of the source. -/
def COLOR_FACTOR : Int := 200

/-- The value of a `char` that holds the byte `b`, `char` being a signed 8-bit
type. -/
def signed8 (b : Nat) : Int := if b < 128 then (b : Int) else (b : Int) - 256

/-- Line 109 of `Map::read`: the value `line[i] + 1` stored in `map_` for a
pixel whose byte is `b` (the sum is computed in `int`, then stored as a
`double`). -/
def read_cell (b : Nat) : Int := signed8 b + 1

/-- The byte that the output stream receives for the `char` obtained by
`static_cast<char>` from the integer value `v`: the value modulo 256. -/
def charByte (v : Int) : Nat := (v % 256).toNat

/-- The value of an `int` expression whose exact value is `v`: 32-bit two's
complement wrap-around. -/
def wrap32 (v : Int) : Int := (v + 2147483648) % 4294967296 - 2147483648

/-- The quotient `n / d` rounded to the nearest integer, ties to the even
one. -/
def roundHalfEven (n d : Nat) : Nat :=
  if 2 * (n % d) < d then n / d
  else if d < 2 * (n % d) then n / d + 1
  else if (n / d) % 2 = 0 then n / d else n / d + 1

/-- Number of halvings that bring `n` below `2`, at most `fuel` of them. -/
def log2Floor : Nat → Nat → Nat
  | 0, _ => 0
  | fuel + 1, n => if n < 2 then 0 else log2Floor fuel (n / 2) + 1

/-- The integer part of the binary logarithm of `n ≥ 1`. -/
def binaryLog (n : Nat) : Nat := log2Floor n n

/-- The integer part of the binary logarithm of `n / d`, for `n, d ≥ 1`: the
exponent of the `float` nearest to the quotient. -/
def quotientExponent (n d : Nat) : Int :=
  if d * 2 ^ (binaryLog n - binaryLog d) ≤ n * 2 ^ (binaryLog d - binaryLog n) then
    (binaryLog n : Int) - (binaryLog d : Int)
  else (binaryLog n : Int) - (binaryLog d : Int) - 1

/-- The integer part of the `float` (IEEE binary32: 24-bit significand, round
to nearest, ties to even) nearest to `n / d`; `0` when `n` or `d` is `0`. -/
def floatQuotTrunc (n d : Nat) : Nat :=
  if n = 0 ∨ d = 0 then 0
  else if 23 ≤ quotientExponent n d then
    roundHalfEven n (d * 2 ^ (quotientExponent n d - 23).toNat) *
      2 ^ (quotientExponent n d - 23).toNat
  else
    roundHalfEven (n * 2 ^ (23 - quotientExponent n d).toNat) d /
      2 ^ (23 - quotientExponent n d).toNat

/-- The value of the `float` to which the `int` `v` converts: the nearest
`float`, which is an integer. -/
def floatOfInt (v : Int) : Int := v.sign * (floatQuotTrunc v.natAbs 1 : Nat)

/-- The quotient of the `float`s of values `a` and `b`, rounded to a `float`
and truncated towards zero by the cast to an integer type. -/
def floatDivTrunc (a b : Int) : Int :=
  a.sign * b.sign * (floatQuotTrunc a.natAbs b.natAbs : Nat)

/-- Lines 125 and 131-133 of `Map::output_wavefront`: the byte emitted for a
cell with `map_` value `m` and gradient `w`.  The product `w * COLOR_FACTOR` is
an `int`, `max_grd` is the `float` of the argument `gradient`, the quotient is a
`float` and the cast truncates it. -/
def output_cell (m w gradient : Int) : Nat :=
  if m = 1 ∨ w = 0 then charByte (m - 1)
  else charByte (floatDivTrunc (floatOfInt (wrap32 (w * COLOR_FACTOR))) (floatOfInt gradient))

/-! ## Bookkeeping of a run -/

/-- The unlabelled Free cells of the grid, as (row, column) pairs. -/
def Map.freshCells (s : Map) : Finset (Nat × Nat) :=
  (Finset.range s.height ×ˢ Finset.range s.width).filter
    (fun rc => s.Fresh (PointXY.mk (rc.2 : Int) (rc.1 : Int)))

/-- Number of unlabelled Free cells of the grid. -/
def Map.freshCount (s : Map) : Nat := s.freshCells.card

/-- Every cell of the perimeter has a non-zero gradient. -/
def Map.AllLabeled (s : Map) (perimeter : List PointXY) : Prop :=
  ∀ p ∈ perimeter, ∃ v, s.waveAt p = some v ∧ v ≠ 0

/-- The calls of `propagate_wave` made by the `while` loop of `wavefront`: the
state, the perimeter and the ring value passed to each call, in order. -/
def ringCalls (plyr : PointXY) :
    Nat → Map → List PointXY → Int → List (Map × List PointXY × Int)
  | 0, _, _, _ => []
  | fuel + 1, s, perim, gradient =>
    if goal_reached perim plyr then []
    else
      (s, perim, gradient + 1) ::
        match propagate_wave s perim (gradient + 1) with
        | none => []
        | some (s1, frontier) =>
          if goal_unreachable perim.length then []
          else ringCalls plyr fuel s1 (swap_waves frontier frontier.length) (gradient + 1)

/-- The calls of `propagate_wave` made by one run of `wavefront`. -/
def wavefrontCalls (s : Map) (player destination : PointXY) :
    List (Map × List PointXY × Int) :=
  match setAt s.wave_ destination.y_ destination.x_ 1 with
  | none => []
  | some wv =>
    ringCalls player (zeroCount wv + 2) (Map.mk s.map_ wv)
      [PointXY.mk destination.x_ destination.y_] 1

/-- A corridor of `n` Free cells: three rows of `n + 2` cells, the first and
the last all Obstacle, the middle one Free between two Obstacle ends; all-zero
gradient. -/
def corridor (n : Nat) : Map :=
  Map.mk
    [List.replicate (n + 2) 1, 1 :: (List.replicate n 0 ++ [1]), List.replicate (n + 2) 1]
    (List.replicate 3 (List.replicate (n + 2) 0))

/-- A one-row raster loaded from the bytes `100` and `255`, with all-zero
gradient. -/
def demoRaster : Map := Map.mk [[read_cell 100, read_cell 255]] [[0, 0]]

/-! ## Reading and writing cells -/

theorem setAt_eq_some {g g1 : List (List Int)} {r c v : Int} (h : setAt g r c v = some g1) :
    0 ≤ r ∧ 0 ≤ c ∧ ∃ row, g[r.toNat]? = some row ∧ c.toNat < row.length ∧
      g1 = g.set r.toNat (row.set c.toNat v) := by
  unfold setAt at h
  split at h
  · rename_i hrc
    split at h
    · cases h
    · rename_i row hrow
      split at h
      · rename_i hc
        injection h with h
        exact ⟨hrc.1, hrc.2, row, hrow, hc, h.symm⟩
      · cases h
  · cases h

theorem cellAt_eq_some {g : List (List Int)} {r c w : Int} (h : cellAt g r c = some w) :
    0 ≤ r ∧ 0 ≤ c ∧ ∃ row, g[r.toNat]? = some row ∧ row[c.toNat]? = some w := by
  unfold cellAt at h
  split at h
  · rename_i hrc
    split at h
    · cases h
    · rename_i row hrow
      exact ⟨hrc.1, hrc.2, row, hrow, h⟩
  · cases h

theorem setAt_of_cellAt {g : List (List Int)} {r c w : Int} (v : Int)
    (h : cellAt g r c = some w) : ∃ g1, setAt g r c v = some g1 := by
  obtain ⟨hr, hc, row, hrow, hw⟩ := cellAt_eq_some h
  have hlt : c.toNat < row.length := (List.getElem?_eq_some.mp hw).1
  refine ⟨g.set r.toNat (row.set c.toNat v), ?_⟩
  simp [setAt, hr, hc, hrow, hlt]

theorem cellAt_setAt {g g1 : List (List Int)} {r c v : Int} (h : setAt g r c v = some g1)
    (r1 c1 : Int) :
    cellAt g1 r1 c1 = if r1 = r ∧ c1 = c then some v else cellAt g r1 c1 := by
  obtain ⟨hr, hc, row, hrow, hlt, rfl⟩ := setAt_eq_some h
  have hrlt : r.toNat < g.length := (List.getElem?_eq_some.mp hrow).1
  unfold cellAt
  by_cases h1 : 0 ≤ r1 ∧ 0 ≤ c1
  · rw [if_pos h1, if_pos h1, List.getElem?_set]
    by_cases hrr : r.toNat = r1.toNat
    · have hr1 : r1 = r := by omega
      subst hr1
      simp only [if_true, hrlt, true_and]
      rw [hrow]
      simp only [List.getElem?_set]
      by_cases hcc : c.toNat = c1.toNat
      · have hc1 : c1 = c := by omega
        subst hc1
        simp [hlt]
      · have hc1 : c1 ≠ c := by omega
        simp [hcc, hc1]
    · have hr1 : r1 ≠ r := fun e => hrr (by rw [e])
      simp [hrr, hr1]
  · have hne : ¬ (r1 = r ∧ c1 = c) := fun e => h1 (by rw [e.1, e.2]; exact ⟨hr, hc⟩)
    simp [h1, hne]

theorem zeroCount_set_row (g : List (List Int)) (i : Nat) (row row1 : List Int)
    (hrow : g[i]? = some row) (hcount : row1.count 0 + 1 = row.count 0) :
    zeroCount (g.set i row1) + 1 = zeroCount g := by
  induction g generalizing i with
  | nil => simp at hrow
  | cons hd tl ih =>
    cases i with
    | zero =>
      simp only [List.getElem?_cons_zero, Option.some.injEq] at hrow
      subst hrow
      simp only [zeroCount, List.set_cons_zero, List.map_cons, List.sum_cons]
      omega
    | succ j =>
      simp only [List.getElem?_cons_succ] at hrow
      have := ih j hrow
      simp only [zeroCount, List.set_cons_succ, List.map_cons, List.sum_cons] at this ⊢
      omega

theorem zeroCount_setAt {g g1 : List (List Int)} {r c v : Int}
    (h : setAt g r c v = some g1) (h0 : cellAt g r c = some 0) (hv : v ≠ 0) :
    zeroCount g1 + 1 = zeroCount g := by
  obtain ⟨hr, hc, row, hrow, hlt, rfl⟩ := setAt_eq_some h
  obtain ⟨_, _, row1, hrow1, hw⟩ := cellAt_eq_some h0
  rw [hrow] at hrow1
  injection hrow1 with hrow1
  subst hrow1
  apply zeroCount_set_row g _ _ _ hrow
  have hget : row[c.toNat] = 0 := by
    have := List.getElem?_eq_some.mp hw
    exact this.2
  rw [List.count_set _ _ _ _ hlt]
  have hpos : 0 < row.count 0 := by
    apply List.count_pos_iff.mpr
    rw [← hget]
    exact List.getElem_mem _
  simp [hget, hv]
  omega

/-! ## One visit of `propagate_wave` -/

theorem labelCell_cases {g : Int} {x : PointXY} {s s1 : Map} {fr fr1 : List PointXY}
    (h : labelCell g x (s, fr) = some (s1, fr1)) :
    (s.Fresh x ∧ s1.map_ = s.map_ ∧ setAt s.wave_ x.y_ x.x_ g = some s1.wave_ ∧
        fr1 = fr ++ [x]) ∨
      (¬ s.Fresh x ∧ s1 = s ∧ fr1 = fr) := by
  unfold labelCell at h
  simp only at h
  split at h
  · cases h
  · rename_i m hm
    split at h
    · rename_i hm0
      subst hm0
      split at h
      · cases h
      · rename_i w hw
        split at h
        · rename_i hw0
          subst hw0
          split at h
          · cases h
          · rename_i wv hwv
            injection h with h
            injection h with h1 h2
            subst h1
            left
            exact ⟨⟨hm, hw⟩, rfl, hwv, h2.symm⟩
        · rename_i hw0
          injection h with h
          injection h with h1 h2
          right
          refine ⟨fun hf => hw0 ?_, h1.symm, h2.symm⟩
          have := hf.2
          unfold Map.waveAt at this
          rw [hw] at this
          injection this
    · rename_i hm0
      injection h with h
      injection h with h1 h2
      right
      refine ⟨fun hf => hm0 ?_, h1.symm, h2.symm⟩
      have := hf.1
      unfold Map.mapAt at this
      rw [hm] at this
      injection this

theorem labelCell_total (g : Int) (x : PointXY) (s : Map) (fr : List PointXY)
    (hm : (s.mapAt x).isSome) (hw : (s.waveAt x).isSome) :
    ∃ r, labelCell g x (s, fr) = some r := by
  obtain ⟨m, hm⟩ := Option.isSome_iff_exists.mp hm
  obtain ⟨w, hw⟩ := Option.isSome_iff_exists.mp hw
  unfold Map.mapAt at hm
  unfold Map.waveAt at hw
  obtain ⟨wv, hwv⟩ := setAt_of_cellAt g hw
  unfold labelCell
  simp only [hm, hw, hwv]
  split
  · split
    · exact ⟨_, rfl⟩
    · exact ⟨_, rfl⟩
  · exact ⟨_, rfl⟩

theorem waveAt_after_write {s t : Map} {x : PointXY} {g : Int}
    (h : setAt s.wave_ x.y_ x.x_ g = some t.wave_) (y : PointXY) :
    t.waveAt y = if y = x then some g else s.waveAt y := by
  unfold Map.waveAt
  rw [cellAt_setAt h]
  by_cases hyx : y = x
  · subst hyx; simp
  · have : ¬ (y.y_ = x.y_ ∧ y.x_ = x.x_) := by
      intro e
      apply hyx
      cases y; cases x
      simp only at e
      simp [e.1, e.2]
    simp [hyx, this]

/-! ## The scan as a fold over the window cells -/

theorem visitAll_append (g : Int) (a b : List PointXY) (st : Map × List PointXY) :
    visitAll g (a ++ b) st = (visitAll g a st).bind (visitAll g b) := by
  induction a generalizing st with
  | nil => simp [visitAll]
  | cons x rest ih =>
    simp only [List.cons_append, visitAll]
    cases hx : labelCell g x st with
    | none => simp
    | some st1 => simp [ih]

theorem labelCell_length_le {g : Int} {x : PointXY} {s s1 : Map} {fr fr1 : List PointXY}
    (h : labelCell g x (s, fr) = some (s1, fr1)) : fr.length ≤ fr1.length := by
  rcases labelCell_cases h with ⟨-, -, -, hfr⟩ | ⟨-, -, hfr⟩
  · rw [hfr]; simp
  · rw [hfr]

theorem visitAll_length_le {g : Int} {cells : List PointXY} {st r : Map × List PointXY}
    (h : visitAll g cells st = some r) : st.2.length ≤ r.2.length := by
  induction cells generalizing st with
  | nil =>
    simp only [visitAll, Option.some.injEq] at h
    rw [h]
  | cons c0 rest ih =>
    simp only [visitAll] at h
    cases hv : labelCell g c0 st with
    | none => rw [hv] at h; cases h
    | some st1 =>
      rw [hv] at h
      obtain ⟨s, fr⟩ := st
      obtain ⟨s1, fr1⟩ := st1
      exact le_trans (labelCell_length_le hv) (ih h)

theorem fitsWithin_overflow {cap : Nat} {g : Int} {cells : List PointXY}
    {st : Map × List PointXY} (hst : ¬ st.2.length ≤ cap) :
    (visitAll g cells st).bind (fitsWithin cap) = none := by
  cases h : visitAll g cells st with
  | none => rfl
  | some r =>
    have := visitAll_length_le h
    simp only [Option.some_bind, fitsWithin]
    rw [if_neg (by omega)]

theorem visitCell_eq (cap : Nat) (g : Int) (x : PointXY) (st : Map × List PointXY)
    (hst : st.2.length ≤ cap) :
    visitCell cap g x st = (labelCell g x st).bind (fitsWithin cap) := by
  unfold visitCell labelCell fitsWithin
  cases cellAt st.1.map_ x.y_ x.x_ with
  | none => rfl
  | some m =>
    simp only
    by_cases hm : m = 0
    · simp only [hm, if_true]
      cases cellAt st.1.wave_ x.y_ x.x_ with
      | none => rfl
      | some w =>
        simp only
        by_cases hw : w = 0
        · simp only [hw, if_true]
          by_cases hlt : st.2.length < cap
          · rw [if_pos hlt]
            cases setAt st.1.wave_ x.y_ x.x_ g with
            | none => rfl
            | some wv =>
              simp only [Option.some_bind, List.length_append, List.length_singleton]
              rw [if_pos (by omega)]
          · rw [if_neg hlt]
            cases setAt st.1.wave_ x.y_ x.x_ g with
            | none => rfl
            | some wv =>
              simp only [Option.some_bind, List.length_append, List.length_singleton]
              rw [if_neg (by omega)]
        · simp only [hw, if_false, Option.some_bind]
          rw [if_pos hst]
    · simp only [hm, if_false, Option.some_bind]
      rw [if_pos hst]

theorem scanWindow_eq (cap : Nat) (g : Int) (p : PointXY) (l : List Nat)
    (st : Map × List PointXY) (hst : st.2.length ≤ cap) :
    scanWindow cap g p l st =
      (visitAll g (l.map (windowCell p)) st).bind (fitsWithin cap) := by
  induction l generalizing st with
  | nil => simp [scanWindow, visitAll, fitsWithin, hst]
  | cons i rest ih =>
    simp only [scanWindow, List.map_cons, visitAll]
    rw [visitCell_eq cap g _ st hst]
    cases hx : labelCell g (windowCell p i) st with
    | none => rfl
    | some st1 =>
      simp only [Option.some_bind]
      by_cases hfit : st1.2.length ≤ cap
      · simp only [fitsWithin, if_pos hfit]
        exact ih st1 hfit
      · simp only [fitsWithin, if_neg hfit]
        exact (fitsWithin_overflow hfit).symm

theorem scanPerimeter_eq (cap : Nat) (g : Int) (l : List PointXY)
    (st : Map × List PointXY) (hst : st.2.length ≤ cap) :
    scanPerimeter cap g l st = (visitAll g (windowCells l) st).bind (fitsWithin cap) := by
  induction l generalizing st with
  | nil => simp [scanPerimeter, visitAll, windowCells, fitsWithin, hst]
  | cons p rest ih =>
    have hw : windowCells (p :: rest) =
        (List.range (ADJ * ADJ)).map (windowCell p) ++ windowCells rest := by
      simp [windowCells]
    rw [hw, visitAll_append]
    simp only [scanPerimeter]
    rw [scanWindow_eq cap g p _ st hst]
    cases hx : visitAll g ((List.range (ADJ * ADJ)).map (windowCell p)) st with
    | none => rfl
    | some st1 =>
      simp only [Option.some_bind]
      by_cases hfit : st1.2.length ≤ cap
      · simp only [fitsWithin, if_pos hfit]
        exact ih st1 hfit
      · simp only [fitsWithin, if_neg hfit]
        exact (fitsWithin_overflow hfit).symm

theorem propagate_wave_eq (s : Map) (perimeter : List PointXY) (g : Int) :
    propagate_wave s perimeter g =
      (visitAll g (windowCells perimeter) (s, [])).bind
        (fitsWithin (DIRECTIONS * perimeter.length)) := by
  unfold propagate_wave
  exact scanPerimeter_eq _ g perimeter (s, []) (Nat.zero_le _)

theorem propagate_wave_some {s s1 : Map} {perimeter fr : List PointXY} {g : Int} :
    propagate_wave s perimeter g = some (s1, fr) ↔
      visitAll g (windowCells perimeter) (s, []) = some (s1, fr) ∧
        fr.length ≤ DIRECTIONS * perimeter.length := by
  rw [propagate_wave_eq]
  cases h : visitAll g (windowCells perimeter) (s, []) with
  | none => simp
  | some r =>
    simp only [Option.some_bind, fitsWithin, Option.some.injEq]
    constructor
    · intro h1
      split at h1
      · rename_i hfit
        injection h1 with h1
        subst h1
        exact ⟨rfl, hfit⟩
      · cases h1
    · rintro ⟨h1, h2⟩
      subst h1
      rw [if_pos h2]

theorem inWindow_iff (p x : PointXY) :
    inWindow p x ↔ (p.x_ - 1 ≤ x.x_ ∧ x.x_ ≤ p.x_ + 1) ∧ (p.y_ - 1 ≤ x.y_ ∧ x.y_ ≤ p.y_ + 1) := by
  unfold inWindow
  rw [abs_le, abs_le]
  constructor <;> intro h <;> omega

theorem mem_windowCells (perimeter : List PointXY) (x : PointXY) :
    x ∈ windowCells perimeter ↔ ∃ p ∈ perimeter, inWindow p x := by
  unfold windowCells
  simp only [List.mem_flatMap, List.mem_map, List.mem_range]
  constructor
  · rintro ⟨p, hp, i, hi, rfl⟩
    refine ⟨p, hp, ?_⟩
    rw [inWindow_iff]
    simp only [windowCell, ADJ] at hi ⊢
    omega
  · rintro ⟨p, hp, hw⟩
    rw [inWindow_iff] at hw
    refine ⟨p, hp, ((x.y_ - p.y_ + 1) * 3 + (x.x_ - p.x_ + 1)).toNat, ?_, ?_⟩
    · simp only [ADJ]; omega
    · cases x with
      | mk xx xy =>
        simp only at hw
        simp only [windowCell, ADJ, PointXY.mk.injEq]
        omega

/-! ## Effect of a scan on the gradient grid -/

theorem mapAt_congr {s s1 : Map} (h : s1.map_ = s.map_) (x : PointXY) :
    s1.mapAt x = s.mapAt x := by
  unfold Map.mapAt; rw [h]

theorem visitAll_any {g : Int} {cells : List PointXY} {s s1 : Map} {fr fr1 : List PointXY}
    (h : visitAll g cells (s, fr) = some (s1, fr1)) :
    s1.map_ = s.map_ ∧
      ∀ x, s1.waveAt x = s.waveAt x ∨ (s.Fresh x ∧ s1.waveAt x = some g) := by
  induction cells generalizing s fr with
  | nil =>
    simp only [visitAll, Option.some.injEq, Prod.mk.injEq] at h
    obtain ⟨rfl, rfl⟩ := h
    exact ⟨rfl, fun x => Or.inl rfl⟩
  | cons c0 rest ih =>
    simp only [visitAll] at h
    cases hv : labelCell g c0 (s, fr) with
    | none => rw [hv] at h; cases h
    | some st =>
      obtain ⟨s2, fr2⟩ := st
      rw [hv] at h
      obtain ⟨hmap, hwave⟩ := ih h
      rcases labelCell_cases hv with ⟨hf, hm, hset, -⟩ | ⟨-, rfl, -⟩
      · refine ⟨hmap.trans hm, fun x => ?_⟩
        have hw2 := waveAt_after_write hset x
        rcases hwave x with h1 | ⟨hfx, h1⟩
        · by_cases hx : x = c0
          · subst hx
            right
            rw [if_pos rfl] at hw2
            exact ⟨hf, h1.trans hw2⟩
          · left
            rw [if_neg hx] at hw2
            exact h1.trans hw2
        · right
          refine ⟨?_, h1⟩
          by_cases hx : x = c0
          · subst hx; exact hf
          · rw [if_neg hx] at hw2
            exact ⟨(mapAt_congr hm x) ▸ hfx.1, hw2 ▸ hfx.2⟩
      · exact ⟨hmap, hwave⟩

theorem visitAll_spec {g : Int} (hg : g ≠ 0) {cells : List PointXY} {s s1 : Map}
    {fr fr1 : List PointXY} (h : visitAll g cells (s, fr) = some (s1, fr1)) :
    (∀ x, x ∈ cells → s.Fresh x → s1.waveAt x = some g) ∧
      (∀ x, ¬ (x ∈ cells ∧ s.Fresh x) → s1.waveAt x = s.waveAt x) ∧
      ∃ new, fr1 = fr ++ new ∧ new.Nodup ∧ (∀ x, x ∈ new ↔ x ∈ cells ∧ s.Fresh x) ∧
        zeroCount s1.wave_ + new.length = zeroCount s.wave_ := by
  induction cells generalizing s fr with
  | nil =>
    simp only [visitAll, Option.some.injEq, Prod.mk.injEq] at h
    obtain ⟨rfl, rfl⟩ := h
    exact ⟨fun x hx => absurd hx (List.not_mem_nil x), fun x _ => rfl, [], by simp⟩
  | cons c0 rest ih =>
    simp only [visitAll] at h
    cases hv : labelCell g c0 (s, fr) with
    | none => rw [hv] at h; cases h
    | some st =>
      obtain ⟨s2, fr2⟩ := st
      rw [hv] at h
      obtain ⟨ih1, ih2, new, hfr, hnd, hmem, hcount⟩ := ih h
      rcases labelCell_cases hv with ⟨hf, hm, hset, hfr2⟩ | ⟨hnf, rfl, rfl⟩
      · have hw2 := waveAt_after_write hset
        have hfresh : ∀ x, s2.Fresh x ↔ s.Fresh x ∧ x ≠ c0 := by
          intro x
          unfold Map.Fresh
          rw [mapAt_congr hm x, hw2 x]
          by_cases hx : x = c0
          · subst hx
            simp only [if_true, ne_eq, not_true_eq_false, and_false, iff_false, not_and]
            intro _ e
            injection e with e
            exact hg e
          · simp [hx]
        have hc0 : s1.waveAt c0 = some g := by
          rw [ih2 c0 (fun e => ((hfresh c0).mp e.2).2 rfl), hw2 c0, if_pos rfl]
        refine ⟨?_, ?_, c0 :: new, ?_, ?_, ?_, ?_⟩
        · intro x hx hfx
          by_cases hxc : x = c0
          · subst hxc; exact hc0
          · have hxr : x ∈ rest := by
              rcases List.mem_cons.mp hx with e | e
              · exact absurd e hxc
              · exact e
            exact ih1 x hxr ((hfresh x).mpr ⟨hfx, hxc⟩)
        · intro x hx
          have hxc : x ≠ c0 := by
            intro e
            subst e
            exact hx ⟨List.mem_cons_self _ _, hf⟩
          rw [ih2 x, hw2 x, if_neg hxc]
          intro e
          exact hx ⟨List.mem_cons_of_mem _ e.1, ((hfresh x).mp e.2).1⟩
        · rw [hfr, hfr2]; simp
        · refine List.nodup_cons.mpr ⟨fun e => ?_, hnd⟩
          exact ((hfresh c0).mp ((hmem c0).mp e).2).2 rfl
        · intro x
          rw [List.mem_cons, hmem x, hfresh x, List.mem_cons]
          constructor
          · rintro (e | ⟨e1, e2, -⟩)
            · subst e; exact ⟨Or.inl rfl, hf⟩
            · exact ⟨Or.inr e1, e2⟩
          · rintro ⟨e1 | e1, e2⟩
            · exact Or.inl e1
            · by_cases hxc : x = c0
              · exact Or.inl hxc
              · exact Or.inr ⟨e1, e2, hxc⟩
        · have := zeroCount_setAt hset hf.2 hg
          simp only [List.length_cons]
          omega
      · refine ⟨?_, ?_, new, hfr, hnd, ?_, hcount⟩
        · intro x hx hfx
          rcases List.mem_cons.mp hx with e | e
          · subst e; exact absurd hfx hnf
          · exact ih1 x e hfx
        · intro x hx
          exact ih2 x (fun e => hx ⟨List.mem_cons_of_mem _ e.1, e.2⟩)
        · intro x
          rw [hmem x, List.mem_cons]
          constructor
          · rintro ⟨e1, e2⟩; exact ⟨Or.inr e1, e2⟩
          · rintro ⟨e1 | e1, e2⟩
            · subst e1; exact absurd e2 hnf
            · exact ⟨e1, e2⟩

theorem visitAll_total (g : Int) (cells : List PointXY) (s : Map) (fr : List PointXY)
    (hin : ∀ x ∈ cells, (s.mapAt x).isSome ∧ (s.waveAt x).isSome) :
    ∃ r, visitAll g cells (s, fr) = some r := by
  induction cells generalizing s fr with
  | nil => exact ⟨_, rfl⟩
  | cons c0 rest ih =>
    obtain ⟨⟨s2, fr2⟩, hv⟩ :=
      labelCell_total g c0 s fr (hin c0 (List.mem_cons_self _ _)).1
        (hin c0 (List.mem_cons_self _ _)).2
    simp only [visitAll, hv]
    apply ih
    intro x hx
    have hx0 := hin x (List.mem_cons_of_mem _ hx)
    rcases labelCell_cases hv with ⟨hf, hm, hset, -⟩ | ⟨-, rfl, -⟩
    · refine ⟨by rw [mapAt_congr hm x]; exact hx0.1, ?_⟩
      rw [waveAt_after_write hset x]
      by_cases hxc : x = c0
      · simp [hxc]
      · simp only [if_neg hxc]; exact hx0.2
    · exact hx0

/-! ## Size of the frontier -/

theorem Map.KeepsLabels.refl (s : Map) : s.KeepsLabels s := fun _ _ h _ => h

theorem Map.KeepsLabels.trans {s t u : Map} (h1 : s.KeepsLabels t) (h2 : t.KeepsLabels u) :
    s.KeepsLabels u := fun x v hv hv0 => h2 x v (h1 x v hv hv0) hv0

theorem labelCell_length {g : Int} {x : PointXY} {s s1 : Map} {fr fr1 : List PointXY}
    (h : labelCell g x (s, fr) = some (s1, fr1)) :
    fr1.length ≤ fr.length + 1 ∧ (¬ s.Fresh x → fr1.length = fr.length) ∧
      s.KeepsLabels s1 := by
  rcases labelCell_cases h with ⟨hf, -, hset, hfr⟩ | ⟨-, rfl, rfl⟩
  · refine ⟨by rw [hfr]; simp, fun hn => absurd hf hn, ?_⟩
    intro y v hv hv0
    rw [waveAt_after_write hset y, if_neg]
    · exact hv
    · intro e
      subst e
      rw [hf.2] at hv
      injection hv with hv
      exact hv0 hv.symm
  · exact ⟨by omega, fun _ => rfl, Map.KeepsLabels.refl _⟩

theorem visitAll_length {g : Int} {cells : List PointXY} {s s1 : Map}
    {fr fr1 : List PointXY} (h : visitAll g cells (s, fr) = some (s1, fr1)) :
    fr1.length ≤ fr.length + cells.length ∧ s.KeepsLabels s1 := by
  induction cells generalizing s fr with
  | nil =>
    simp only [visitAll, Option.some.injEq, Prod.mk.injEq] at h
    obtain ⟨rfl, rfl⟩ := h
    exact ⟨by simp, Map.KeepsLabels.refl s⟩
  | cons c0 rest ih =>
    simp only [visitAll] at h
    cases hv : labelCell g c0 (s, fr) with
    | none => rw [hv] at h; cases h
    | some st =>
      obtain ⟨s2, fr2⟩ := st
      rw [hv] at h
      obtain ⟨h1, -, hk1⟩ := labelCell_length hv
      obtain ⟨h2, hk2⟩ := ih h
      refine ⟨?_, hk1.trans hk2⟩
      simp only [List.length_cons]
      omega

theorem window_cells_split (p : PointXY) :
    (List.range (ADJ * ADJ)).map (windowCell p) =
      [windowCell p 0, windowCell p 1, windowCell p 2, windowCell p 3] ++
        p :: [windowCell p 5, windowCell p 6, windowCell p 7, windowCell p 8] := by
  have h4 : windowCell p 4 = p := by
    cases p
    simp only [windowCell, ADJ, PointXY.mk.injEq]
    omega
  have hr : List.range (ADJ * ADJ) = [0, 1, 2, 3, 4, 5, 6, 7, 8] := by decide
  rw [hr]
  simp only [List.map_cons, List.map_nil, h4, List.cons_append, List.nil_append]

theorem visitAll_cons (g : Int) (x : PointXY) (rest : List PointXY)
    (st : Map × List PointXY) :
    visitAll g (x :: rest) st = (labelCell g x st).bind (visitAll g rest) := by
  cases h : labelCell g x st <;> simp [visitAll, h]

theorem visitAll_window_length {g : Int} {p : PointXY} {s s1 : Map} {fr fr1 : List PointXY}
    (hp : ∃ v, s.waveAt p = some v ∧ v ≠ 0)
    (h : visitAll g ((List.range (ADJ * ADJ)).map (windowCell p)) (s, fr) = some (s1, fr1)) :
    fr1.length ≤ fr.length + 8 ∧ s.KeepsLabels s1 := by
  rw [window_cells_split, visitAll_append] at h
  cases ha : visitAll g [windowCell p 0, windowCell p 1, windowCell p 2, windowCell p 3]
      (s, fr) with
  | none => rw [ha] at h; cases h
  | some sta =>
    obtain ⟨sa, fra⟩ := sta
    rw [ha, Option.some_bind, visitAll_cons] at h
    obtain ⟨hla, hka⟩ := visitAll_length ha
    cases hb : labelCell g p (sa, fra) with
    | none => rw [hb] at h; cases h
    | some stb =>
      obtain ⟨sb, frb⟩ := stb
      rw [hb, Option.some_bind] at h
      obtain ⟨-, hlb, hkb⟩ := labelCell_length hb
      obtain ⟨v, hv, hv0⟩ := hp
      have hnf : ¬ sa.Fresh p := by
        intro hf
        have := hka p v hv hv0
        rw [hf.2] at this
        injection this with this
        exact hv0 this.symm
      have hlb1 := hlb hnf
      obtain ⟨hlc, hkc⟩ := visitAll_length h
      refine ⟨?_, (hka.trans hkb).trans hkc⟩
      simp only [List.length_cons, List.length_nil] at hla hlc
      omega

theorem visitAll_perimeter_length {g : Int} {perimeter : List PointXY} {s s1 : Map}
    {fr fr1 : List PointXY} (hlab : s.AllLabeled perimeter)
    (h : visitAll g (windowCells perimeter) (s, fr) = some (s1, fr1)) :
    fr1.length ≤ fr.length + DIRECTIONS * perimeter.length := by
  induction perimeter generalizing s fr with
  | nil =>
    simp only [windowCells, List.flatMap_nil, visitAll, Option.some.injEq, Prod.mk.injEq] at h
    obtain ⟨-, rfl⟩ := h
    simp
  | cons p rest ih =>
    have hw : windowCells (p :: rest) =
        (List.range (ADJ * ADJ)).map (windowCell p) ++ windowCells rest := by
      simp [windowCells]
    rw [hw, visitAll_append] at h
    cases ha : visitAll g ((List.range (ADJ * ADJ)).map (windowCell p)) (s, fr) with
    | none => rw [ha] at h; cases h
    | some sta =>
      obtain ⟨sa, fra⟩ := sta
      rw [ha, Option.some_bind] at h
      obtain ⟨hla, hka⟩ := visitAll_window_length (hlab p (List.mem_cons_self _ _)) ha
      have hrest : sa.AllLabeled rest := by
        intro q hq
        obtain ⟨v, hv, hv0⟩ := hlab q (List.mem_cons_of_mem _ hq)
        exact ⟨v, hka q v hv hv0, hv0⟩
      have := ih hrest h
      simp only [List.length_cons, DIRECTIONS] at this ⊢
      omega

/-! ## `propagate_wave`: one ring expansion -/

theorem propagate_wave_any {s s1 : Map} {perimeter fr : List PointXY} {g : Int}
    (h : propagate_wave s perimeter g = some (s1, fr)) :
    s1.map_ = s.map_ ∧
      ∀ x, s1.waveAt x = s.waveAt x ∨ (s.Fresh x ∧ s1.waveAt x = some g) :=
  visitAll_any (propagate_wave_some.mp h).1

theorem propagate_wave_spec {s s1 : Map} {perimeter fr : List PointXY} {g : Int} (hg : g ≠ 0)
    (h : propagate_wave s perimeter g = some (s1, fr)) :
    (∀ x, (∃ p ∈ perimeter, inWindow p x) → s.Fresh x → s1.waveAt x = some g) ∧
      (∀ x, ¬ ((∃ p ∈ perimeter, inWindow p x) ∧ s.Fresh x) → s1.waveAt x = s.waveAt x) ∧
      fr.Nodup ∧ (∀ x, x ∈ fr ↔ (∃ p ∈ perimeter, inWindow p x) ∧ s.Fresh x) ∧
      zeroCount s1.wave_ + fr.length = zeroCount s.wave_ := by
  obtain ⟨h1, h2, new, hfr, hnd, hmem, hcount⟩ :=
    visitAll_spec hg (propagate_wave_some.mp h).1
  simp only [List.nil_append] at hfr
  subst hfr
  simp only [mem_windowCells] at h1 h2 hmem
  exact ⟨h1, h2, hnd, hmem, hcount⟩

theorem propagate_wave_total (s : Map) (perimeter : List PointXY) (g : Int)
    (hin : ∀ p ∈ perimeter, s.WindowInBounds p) (hlab : s.AllLabeled perimeter) :
    ∃ s1 fr, propagate_wave s perimeter g = some (s1, fr) := by
  have := visitAll_total g (windowCells perimeter) s [] (by
    intro x hx
    unfold windowCells at hx
    simp only [List.mem_flatMap, List.mem_map, List.mem_range] at hx
    obtain ⟨p, hp, i, hi, rfl⟩ := hx
    exact hin p hp i hi)
  obtain ⟨⟨s1, fr⟩, h⟩ := this
  refine ⟨s1, fr, propagate_wave_some.mpr ⟨h, ?_⟩⟩
  have := visitAll_perimeter_length hlab h
  simpa using this

theorem propagate_wave_nil (s : Map) (g : Int) : propagate_wave s [] g = some (s, []) := rfl

/-! ## The `while` loop: helpers and the iteration budget -/

theorem goal_reached_iff (perim : List PointXY) (goal : PointXY) :
    goal_reached perim goal = true ↔ goal ∈ perim := by
  induction perim with
  | nil => simp [goal_reached]
  | cons p rest ih =>
    simp only [goal_reached, List.mem_cons]
    by_cases hp : p.x_ = goal.x_ ∧ p.y_ = goal.y_
    · have : goal = p := by
        cases p; cases goal
        simp only at hp
        simp [hp.1, hp.2]
      simp [hp, this]
    · have : goal ≠ p := by
        intro e; subst e; exact hp ⟨rfl, rfl⟩
      simp [hp, this, ih]

theorem swap_waves_length (frontier : List PointXY) :
    swap_waves frontier frontier.length = frontier := by
  unfold swap_waves
  exact List.take_length frontier

theorem goal_unreachable_iff (n : Nat) : goal_unreachable n = true ↔ n = 0 := by
  unfold goal_unreachable
  by_cases h : n = 0 <;> simp [h]

theorem wavefrontLoop_budget (plyr : PointXY) (fuel : Nat) (s : Map) (perim : List PointXY)
    (g : Int) (hg : 0 ≤ g) (h1 : perim ≠ [] → zeroCount s.wave_ + 2 ≤ fuel)
    (h2 : perim = [] → 1 ≤ fuel) :
    wavefrontLoop plyr fuel s perim g ≠ Outcome.outOfFuel := by
  induction fuel generalizing s perim g with
  | zero =>
    by_cases hp : perim = []
    · have := h2 hp; omega
    · have := h1 hp; omega
  | succ fuel ih =>
    unfold wavefrontLoop
    split
    · simp
    · cases hprop : propagate_wave s perim (g + 1) with
      | none => simp
      | some r =>
        obtain ⟨s1, fr⟩ := r
        simp only
        split
        · simp
        · rename_i hun
          have hne : perim ≠ [] := by
            intro e
            apply hun
            rw [goal_unreachable_iff, e]
            rfl
          rw [swap_waves_length]
          have hcount := (propagate_wave_spec (by omega) hprop).2.2.2.2
          have hb := h1 hne
          apply ih s1 fr (g + 1) (by omega)
          · intro hfr
            have : 0 < fr.length := List.length_pos.mpr hfr
            omega
          · intro _
            omega

/-- The iteration budget that `wavefront` gives to its loop is never exhausted:
the embedding computes what the unbounded `while` loop computes. -/
theorem wavefront_budget_suffices (s : Map) (player destination : PointXY) :
    wavefront s player destination ≠ Outcome.outOfFuel := by
  unfold wavefront
  split
  · simp
  · exact wavefrontLoop_budget _ _ _ _ _ (by omega) (fun _ => le_refl _) (fun h => by simp at h)

/-! ## Reachability by window steps -/

theorem inWindow_self (x : PointXY) : inWindow x x := by
  rw [inWindow_iff]; omega

theorem inWindow_symm {p x : PointXY} (h : inWindow p x) : inWindow x p := by
  rw [inWindow_iff] at h ⊢; omega

theorem Reach.free {s : Map} {a x : PointXY} {n : Nat} (h : Reach s a n x) : s.isFree x := by
  cases h with
  | start h0 => exact h0
  | step _ _ hx => exact hx

theorem Reach.succ {s : Map} {a x : PointXY} {n : Nat} (h : Reach s a n x) :
    Reach s a (n + 1) x :=
  Reach.step h (inWindow_self x) h.free

theorem Reach.mono {s : Map} {a x : PointXY} {n m : Nat} (h : Reach s a n x) (hnm : n ≤ m) :
    Reach s a m x := by
  induction hnm with
  | refl => exact h
  | step _ ih => exact ih.succ

theorem Reach.cons {s : Map} {a y x : PointXY} {n : Nat} (ha : s.isFree a)
    (hw : inWindow a y) (h : Reach s y n x) : Reach s a (n + 1) x := by
  induction h with
  | start hy => exact Reach.step (Reach.start ha) hw hy
  | step _ hw1 hx ih => exact Reach.step ih hw1 hx

theorem Reach.zero_eq {s : Map} {a x : PointXY} (h : Reach s a 0 x) : x = a := by
  cases h with
  | start _ => rfl

theorem Reach.symm {s : Map} {a x : PointXY} {n : Nat} (h : Reach s a n x) :
    Reach s x n a := by
  induction h with
  | start h0 => exact Reach.start h0
  | step h1 hw hx ih => exact Reach.cons hx (inWindow_symm hw) ih

/-! ## The ring invariant is preserved by one expansion -/

theorem isFree_congr {s s0 : Map} (h : s.map_ = s0.map_) (x : PointXY) :
    s.isFree x ↔ s0.isFree x := by
  unfold Map.isFree
  rw [mapAt_congr h x]

theorem RingInv.perim_level {s0 s : Map} {a : PointXY} {n : Nat} {perim : List PointXY}
    (hinv : RingInv s0 a n s perim) {p : PointXY} (hp : s.waveAt p = some ((n : Int) + 1)) :
    Reach s0 a n p ∧ ∀ j < n, ¬ Reach s0 a j p := by
  obtain ⟨k, _, hv, hr, hmin⟩ := hinv.sound p _ hp (by omega)
  have hk : k = n := by omega
  subst hk
  exact ⟨hr, hmin⟩

theorem RingInv.allLabeled {s0 s : Map} {a : PointXY} {n : Nat} {perim : List PointXY}
    (hinv : RingInv s0 a n s perim) : s.AllLabeled perim :=
  fun p hp => ⟨(n : Int) + 1, (hinv.perim_iff p).mp hp, by omega⟩

theorem RingInv.step {s0 s s1 : Map} {a : PointXY} {n : Nat} {perim fr : List PointXY}
    (hinv : RingInv s0 a n s perim)
    (h : propagate_wave s perim ((n : Int) + 1 + 1) = some (s1, fr)) :
    RingInv s0 a (n + 1) s1 fr := by
  obtain ⟨hnew, hold, -, hmem, -⟩ := propagate_wave_spec (by omega) h
  obtain ⟨hmap, hany⟩ := propagate_wave_any h
  have hfresh_unreached : ∀ x, s.Fresh x → ¬ Reach s0 a n x := by
    intro x hf hr
    obtain ⟨v, hv, hv0⟩ := hinv.complete x hr
    rw [hf.2] at hv
    injection hv with hv
    exact hv0 hv.symm
  refine ⟨hmap.trans hinv.map_eq, ?_, ?_, ?_, ?_⟩
  · intro x hx
    have := hinv.defined x hx
    rcases hany x with e | ⟨_, e⟩
    · rw [e]; exact this
    · rw [e]; rfl
  · intro x v hv hv0
    by_cases hC : (∃ p ∈ perim, inWindow p x) ∧ s.Fresh x
    · obtain ⟨⟨p, hp, hw⟩, hf⟩ := hC
      rw [hnew x ⟨p, hp, hw⟩ hf] at hv
      injection hv with hv
      have hpl := hinv.perim_level ((hinv.perim_iff p).mp hp)
      refine ⟨n + 1, le_refl _, by rw [← hv]; push_cast; ring, ?_, ?_⟩
      · exact Reach.step hpl.1 hw ((isFree_congr hinv.map_eq x).mp hf.1)
      · intro j hj hr
        exact hfresh_unreached x hf (hr.mono (by omega))
    · rw [hold x hC] at hv
      obtain ⟨k, hk, hkv, hr, hmin⟩ := hinv.sound x v hv hv0
      exact ⟨k, by omega, hkv, hr, hmin⟩
  · intro x hr
    cases hr with
    | step hy hw hx =>
      rename_i y
      obtain ⟨w, hw0⟩ := Option.isSome_iff_exists.mp
        (hinv.defined x (by rw [Map.isFree] at hx; rw [hx]; rfl))
      by_cases hwz : w = 0
      · subst hwz
        have hf : s.Fresh x := ⟨(isFree_congr hinv.map_eq x).mpr hx, hw0⟩
        obtain ⟨vy, hvy, hvy0⟩ := hinv.complete y hy
        obtain ⟨k, hk, hkv, hry, -⟩ := hinv.sound y vy hvy hvy0
        have hkn : k = n := by
          by_contra hne
          exact hfresh_unreached x hf ((Reach.step hry hw hx).mono (by omega))
        subst hkn
        have hyp : y ∈ perim := (hinv.perim_iff y).mpr (by rw [hvy, hkv])
        exact ⟨_, hnew x ⟨y, hyp, hw⟩ hf, by omega⟩
      · refine ⟨w, ?_, hwz⟩
        rw [hold x (fun hC => ?_), hw0]
        have := hC.2.2
        rw [hw0] at this
        injection this with this
        exact hwz this
  · intro x
    have hcast : (((n + 1 : Nat) : Int) + 1) = (n : Int) + 1 + 1 := by push_cast; ring
    rw [hcast, hmem x]
    constructor
    · rintro ⟨hp, hf⟩
      exact hnew x hp hf
    · intro hv
      by_contra hC
      rw [hold x hC] at hv
      obtain ⟨k, hk, hkv, -, -⟩ := hinv.sound x _ hv (by omega)
      omega

/-! ## The loop computes breadth-first distances -/

theorem RingInv.exhausted {s0 s : Map} {a : PointXY} {n : Nat}
    (hinv : RingInv s0 a n s []) {j : Nat} {x : PointXY} (h : Reach s0 a j x) :
    ∃ k, k < n ∧ Reach s0 a k x := by
  have key : ∀ y, Reach s0 a n y → ∃ k, k < n ∧ Reach s0 a k y := by
    intro y hy
    obtain ⟨v, hv, hv0⟩ := hinv.complete y hy
    obtain ⟨k, hk, hkv, hr, -⟩ := hinv.sound y v hv hv0
    refine ⟨k, ?_, hr⟩
    rcases Nat.lt_or_ge k n with hlt | hge
    · exact hlt
    · have hkn : k = n := by omega
      subst hkn
      have : y ∈ ([] : List PointXY) := (hinv.perim_iff y).mpr (by rw [hv, hkv])
      exact absurd this (List.not_mem_nil y)
  induction h with
  | start h0 => exact key a ((Reach.start h0).mono (Nat.zero_le n))
  | step _ hw hx ih =>
    obtain ⟨k, hk, hr⟩ := ih
    exact key _ ((Reach.step hr hw hx).mono (by omega))

theorem wavefrontLoop_bfs (plyr : PointXY) (s0 : Map) (a : PointXY) (fuel : Nat) :
    ∀ (n : Nat) (s : Map) (perim : List PointXY) (R : Int) (s1 : Map),
      RingInv s0 a n s perim → (∀ j < n, ¬ Reach s0 a j plyr) →
      wavefrontLoop plyr fuel s perim ((n : Int) + 1) = Outcome.returned R s1 →
      ∃ m perim1, RingInv s0 a m s1 perim1 ∧
        ((R = (m : Int) + 1 ∧ plyr ∈ perim1) ∨ (R = -1 ∧ ∀ j, ¬ Reach s0 a j plyr)) := by
  induction fuel with
  | zero =>
    intro n s perim R s1 hinv _ h
    unfold wavefrontLoop at h
    split at h
    · rename_i hg
      injection h with h1 h2
      subst h1 h2
      exact ⟨n, perim, hinv, Or.inl ⟨rfl, (goal_reached_iff _ _).mp hg⟩⟩
    · cases h
  | succ fuel ih =>
    intro n s perim R s1 hinv hmin h
    unfold wavefrontLoop at h
    split at h
    · rename_i hg
      injection h with h1 h2
      subst h1 h2
      exact ⟨n, perim, hinv, Or.inl ⟨rfl, (goal_reached_iff _ _).mp hg⟩⟩
    · rename_i hg
      cases hprop : propagate_wave s perim ((n : Int) + 1 + 1) with
      | none => rw [hprop] at h; cases h
      | some r =>
        obtain ⟨s2, fr⟩ := r
        rw [hprop] at h
        simp only at h
        split at h
        · rename_i hun
          have hnil : perim = [] :=
            List.length_eq_zero.mp ((goal_unreachable_iff _).mp hun)
          subst hnil
          rw [propagate_wave_nil] at hprop
          injection hprop with hprop
          injection hprop with e1 e2
          subst e1
          injection h with h1 h2
          subst h1 h2
          refine ⟨n, [], hinv, Or.inr ⟨rfl, fun j hr => ?_⟩⟩
          obtain ⟨k, hk, hrk⟩ := hinv.exhausted hr
          exact hmin k hk hrk
        · rw [swap_waves_length] at h
          have hcast : (n : Int) + 1 + 1 = ((n + 1 : Nat) : Int) + 1 := by push_cast; ring
          rw [hcast] at h
          refine ih (n + 1) s2 fr R s1 (hinv.step hprop) ?_ h
          intro j hj hr
          rcases Nat.lt_or_ge j n with hlt | hge
          · exact hmin j hlt hr
          · have hjn : j = n := by omega
            subst hjn
            obtain ⟨v, hv, hv0⟩ := hinv.complete plyr hr
            obtain ⟨k, hk, hkv, hrk, -⟩ := hinv.sound plyr v hv hv0
            rcases Nat.lt_or_ge k j with hlt | hge
            · exact hmin k hlt hrk
            · have hkj : k = j := by omega
              subst hkj
              have : plyr ∈ perim := (hinv.perim_iff plyr).mpr (by rw [hv, hkv])
              rw [← goal_reached_iff] at this
              exact hg this

/-! ## Rectangular grids and the Obstacle border -/

theorem cellAt_isSome_iff (g : List (List Int)) (w : Nat) (hw : ∀ row ∈ g, row.length = w)
    (r c : Int) :
    (cellAt g r c).isSome ↔ 0 ≤ r ∧ r < g.length ∧ 0 ≤ c ∧ c < w := by
  constructor
  · intro h
    obtain ⟨v, hv⟩ := Option.isSome_iff_exists.mp h
    obtain ⟨hr, hc, row, hrow, hcell⟩ := cellAt_eq_some hv
    obtain ⟨hrlt, hget⟩ := List.getElem?_eq_some.mp hrow
    have hlen := hw row (hget ▸ List.getElem_mem _)
    have hclt := (List.getElem?_eq_some.mp hcell).1
    omega
  · rintro ⟨hr, hrlt, hc, hclt⟩
    have hrn : r.toNat < g.length := by omega
    have hlen := hw g[r.toNat] (List.getElem_mem _)
    have hcn : c.toNat < (g[r.toNat]).length := by omega
    unfold cellAt
    rw [if_pos ⟨hr, hc⟩, List.getElem?_eq_getElem hrn]
    simp only
    rw [List.getElem?_eq_getElem hcn]
    rfl

theorem cellAt_mem {g : List (List Int)} {r c v : Int} (h : cellAt g r c = some v) :
    ∃ row ∈ g, v ∈ row := by
  obtain ⟨_, _, row, hrow, hcell⟩ := cellAt_eq_some h
  obtain ⟨_, hget⟩ := List.getElem?_eq_some.mp hrow
  obtain ⟨_, hget2⟩ := List.getElem?_eq_some.mp hcell
  exact ⟨row, hget ▸ List.getElem_mem _, hget2 ▸ List.getElem_mem _⟩

theorem Map.ZeroGradient.waveAt {s : Map} (hz : s.ZeroGradient) {x : PointXY} {v : Int}
    (h : s.waveAt x = some v) : v = 0 := by
  obtain ⟨row, hrow, hv⟩ := cellAt_mem h
  exact hz row hrow v hv

theorem Map.Rectangular.waveAt_isSome {s : Map} (hrect : s.Rectangular) {x : PointXY}
    (h : (s.mapAt x).isSome) : (s.waveAt x).isSome := by
  unfold Map.mapAt at h
  unfold Map.waveAt
  rw [cellAt_isSome_iff _ _ hrect.1] at h
  rw [cellAt_isSome_iff _ _ hrect.2.2, hrect.2.1]
  exact h

theorem Map.BorderObstacle.interior {s : Map} (hrect : s.Rectangular)
    (hborder : s.BorderObstacle) {p : PointXY} (hp : s.isFree p) :
    (1 ≤ p.y_ ∧ p.y_ + 1 < s.height) ∧ (1 ≤ p.x_ ∧ p.x_ + 1 < s.width) := by
  have hsome : (cellAt s.map_ p.y_ p.x_).isSome := by
    rw [Map.isFree, Map.mapAt] at hp
    rw [hp]; rfl
  rw [cellAt_isSome_iff _ _ hrect.1] at hsome
  obtain ⟨hr, hrlt, hc, hclt⟩ := hsome
  have hb := hborder p.y_.toNat (by unfold Map.height; omega) p.x_.toNat (by omega)
  rw [Int.toNat_of_nonneg hr, Int.toNat_of_nonneg hc] at hb
  have hnot : ¬ (p.y_.toNat = 0 ∨ p.y_.toNat + 1 = s.height ∨ p.x_.toNat = 0 ∨
      p.x_.toNat + 1 = s.width) := fun e => hb e hp
  unfold Map.height at hnot ⊢
  omega

theorem Map.BorderObstacle.window {s : Map} (hrect : s.Rectangular)
    (hborder : s.BorderObstacle) {p : PointXY} (hp : s.isFree p) (i : Nat)
    (hi : i < ADJ * ADJ) : (s.mapAt (windowCell p i)).isSome := by
  obtain ⟨hy, hx⟩ := hborder.interior hrect hp
  unfold Map.mapAt
  rw [cellAt_isSome_iff _ _ hrect.1]
  unfold Map.height at hy
  simp only [windowCell, ADJ] at hi ⊢
  omega

/-! ## The invariant holds on entry to the loop -/

theorem RingInv.init {s : Map} {dest : PointXY} {wv : List (List Int)}
    (hrect : s.Rectangular) (hzero : s.ZeroGradient) (hfree : s.isFree dest)
    (hset : setAt s.wave_ dest.y_ dest.x_ 1 = some wv) :
    RingInv s dest 0 (Map.mk s.map_ wv) [PointXY.mk dest.x_ dest.y_] := by
  have hw : ∀ x, (Map.mk s.map_ wv).waveAt x = if x = dest then some 1 else s.waveAt x :=
    fun x => waveAt_after_write (s := s) (t := Map.mk s.map_ wv) hset x
  refine ⟨rfl, ?_, ?_, ?_, ?_⟩
  · intro x hx
    rw [hw x]
    by_cases hxd : x = dest
    · simp [hxd]
    · rw [if_neg hxd]; exact hrect.waveAt_isSome hx
  · intro x v hv hv0
    rw [hw x] at hv
    by_cases hxd : x = dest
    · subst hxd
      rw [if_pos rfl] at hv
      injection hv with hv
      exact ⟨0, le_refl _, by rw [← hv]; rfl, Reach.start hfree, fun j hj => absurd hj (by omega)⟩
    · rw [if_neg hxd] at hv
      exact absurd (hzero.waveAt hv) hv0
  · intro x hr
    have := hr.zero_eq
    subst this
    exact ⟨1, by rw [hw x, if_pos rfl], by omega⟩
  · intro x
    rw [hw x]
    simp only [List.mem_singleton]
    by_cases hxd : x = dest
    · subst hxd; simp
    · rw [if_neg hxd]
      constructor
      · intro e; exact absurd e hxd
      · intro e
        have := hzero.waveAt e
        simp at this

/-! ## Whole runs of `wavefront` -/

theorem wavefrontLoop_inBounds (plyr : PointXY) (s0 : Map) (a : PointXY)
    (hrect : s0.Rectangular) (hborder : s0.BorderObstacle) (fuel : Nat) :
    ∀ (n : Nat) (s : Map) (perim : List PointXY), RingInv s0 a n s perim →
      wavefrontLoop plyr fuel s perim ((n : Int) + 1) ≠ Outcome.outOfBounds := by
  induction fuel with
  | zero =>
    intro n s perim _
    unfold wavefrontLoop
    split <;> simp
  | succ fuel ih =>
    intro n s perim hinv
    unfold wavefrontLoop
    split
    · simp
    · have hin : ∀ p ∈ perim, s.WindowInBounds p := by
        intro p hp i hi
        have hfree := (hinv.perim_level ((hinv.perim_iff p).mp hp)).1.free
        have hm := hborder.window hrect hfree i hi
        exact ⟨by rw [mapAt_congr hinv.map_eq]; exact hm, hinv.defined _ hm⟩
      obtain ⟨s2, fr, hprop⟩ :=
        propagate_wave_total s perim ((n : Int) + 1 + 1) hin hinv.allLabeled
      rw [hprop]
      simp only
      split
      · simp
      · rw [swap_waves_length]
        have hcast : (n : Int) + 1 + 1 = ((n + 1 : Nat) : Int) + 1 := by push_cast; ring
        rw [hcast]
        exact ih (n + 1) s2 fr (hinv.step hprop)

theorem wavefront_bfs {s s1 : Map} {plyr dest : PointXY} {R : Int}
    (hrect : s.Rectangular) (hzero : s.ZeroGradient) (hfree : s.isFree dest)
    (h : wavefront s plyr dest = Outcome.returned R s1) :
    ∃ m perim1, RingInv s dest m s1 perim1 ∧
      ((R = (m : Int) + 1 ∧ plyr ∈ perim1) ∨ (R = -1 ∧ ∀ j, ¬ Reach s dest j plyr)) := by
  unfold wavefront at h
  split at h
  · cases h
  · rename_i wv hset
    have hinv := RingInv.init hrect hzero hfree hset
    exact wavefrontLoop_bfs plyr s dest _ 0 _ _ R s1 hinv
      (fun j hj => absurd hj (by omega)) h

theorem wavefront_inBounds {s : Map} (plyr : PointXY) {dest : PointXY}
    (hrect : s.Rectangular) (hzero : s.ZeroGradient) (hborder : s.BorderObstacle)
    (hfree : s.isFree dest) : wavefront s plyr dest ≠ Outcome.outOfBounds := by
  have hm : (s.mapAt dest).isSome := by rw [Map.isFree] at hfree; rw [hfree]; rfl
  obtain ⟨w, hw⟩ := Option.isSome_iff_exists.mp (hrect.waveAt_isSome hm)
  obtain ⟨wv, hset⟩ := setAt_of_cellAt 1 hw
  unfold wavefront
  rw [hset]
  simp only
  exact wavefrontLoop_inBounds plyr s dest hrect hborder _ 0 _ _
    (RingInv.init hrect hzero hfree hset)

theorem wavefront_returns {s : Map} (plyr : PointXY) {dest : PointXY}
    (hrect : s.Rectangular) (hzero : s.ZeroGradient) (hborder : s.BorderObstacle)
    (hfree : s.isFree dest) : ∃ R s1, wavefront s plyr dest = Outcome.returned R s1 := by
  have h1 := wavefront_inBounds plyr hrect hzero hborder hfree
  have h2 := wavefront_budget_suffices s plyr dest
  cases h : wavefront s plyr dest with
  | returned R s1 => exact ⟨R, s1, rfl⟩
  | outOfBounds => exact absurd h h1
  | outOfFuel => exact absurd h h2

/-! ## Paths and window steps -/

theorem FreePath.reach {s : Map} {a b : PointXY} {path : List PointXY}
    (h : FreePath s a b path) : Reach s a (path.length - 1) b := by
  induction path generalizing a with
  | nil =>
    have := h.1
    simp at this
  | cons x rest ih =>
    obtain ⟨hhead, hlast, hchain, hfree⟩ := h
    simp only [List.head?_cons, Option.some.injEq] at hhead
    subst hhead
    cases rest with
    | nil =>
      simp only [List.getLast?_singleton, Option.some.injEq] at hlast
      subst hlast
      exact Reach.start (hfree x (List.mem_cons_self _ _))
    | cons y rest1 =>
      have hsub : FreePath s y b (y :: rest1) := by
        refine ⟨rfl, ?_, ?_, fun p hp => hfree p (List.mem_cons_of_mem _ hp)⟩
        · rw [List.getLast?_cons_cons] at hlast
          exact hlast
        · exact (List.chain'_cons.mp hchain).2
      have hadj : adjacent8 x y := (List.chain'_cons.mp hchain).1
      have := Reach.cons (hfree x (List.mem_cons_self _ _)) hadj.2 (ih hsub)
      simpa using this

theorem Reach.path {s : Map} {a b : PointXY} {n : Nat} (h : Reach s a n b) :
    ∃ path, FreePath s a b path ∧ path.length ≤ n + 1 := by
  induction h with
  | start h0 =>
    refine ⟨[a], ⟨rfl, rfl, List.chain'_singleton a, ?_⟩, le_refl _⟩
    intro p hp
    rw [List.mem_singleton] at hp
    subst hp
    exact h0
  | step _ hw hx ih =>
    rename_i m y x hprev
    obtain ⟨path, ⟨hhead, hlast, hchain, hfree⟩, hlen⟩ := ih
    by_cases hxy : x = y
    · subst hxy
      exact ⟨path, ⟨hhead, hlast, hchain, hfree⟩, by omega⟩
    · refine ⟨path ++ [x], ⟨?_, ?_, ?_, ?_⟩, ?_⟩
      · rw [List.head?_append, hhead]; rfl
      · exact List.getLast?_concat _
      · rw [List.chain'_append]
        refine ⟨hchain, List.chain'_singleton x, ?_⟩
        intro l hl r hr
        rw [hlast] at hl
        simp only [Option.mem_def, Option.some.injEq] at hl
        simp only [List.head?_cons, Option.mem_def, Option.some.injEq] at hr
        subst hl hr
        exact ⟨fun e => hxy e.symm, hw⟩
      · intro p hp
        rcases List.mem_append.mp hp with e | e
        · exact hfree p e
        · rw [List.mem_singleton] at e
          subst e
          exact hx
      · simp only [List.length_append, List.length_singleton]
        omega

theorem FreePath.length_pos {s : Map} {a b : PointXY} {path : List PointXY}
    (h : FreePath s a b path) : 0 < path.length := by
  cases path with
  | nil => have := h.1; simp at this
  | cons x rest => simp

theorem minMoves_iff (s : Map) (a b : PointXY) (n : Nat) :
    MinMoves s a b n ↔ Reach s a n b ∧ ∀ j < n, ¬ Reach s a j b := by
  constructor
  · rintro ⟨⟨path, hpath, hlen⟩, hmin⟩
    refine ⟨?_, ?_⟩
    · have := hpath.reach
      rw [hlen] at this
      exact this
    · intro j hj hr
      obtain ⟨path1, hpath1, hlen1⟩ := hr.path
      have := hmin path1 hpath1
      omega
  · rintro ⟨hr, hmin⟩
    have hall : ∀ path, FreePath s a b path → n + 1 ≤ path.length := by
      intro path hpath
      by_contra hlt
      have hpos := hpath.length_pos
      exact hmin (path.length - 1) (by omega) hpath.reach
    obtain ⟨path, hpath, hlen⟩ := hr.path
    exact ⟨⟨path, hpath, le_antisymm hlen (hall path hpath)⟩, hall⟩

theorem connected_iff (s : Map) (a b : PointXY) :
    Connected s a b ↔ ∃ n, Reach s a n b := by
  constructor
  · rintro ⟨path, hpath⟩
    exact ⟨_, hpath.reach⟩
  · rintro ⟨n, hr⟩
    obtain ⟨path, hpath, -⟩ := hr.path
    exact ⟨path, hpath⟩

/-! ## Properties carried along the loop -/

theorem wavefrontLoop_induct (plyr : PointXY) (P : Map → List PointXY → Int → Prop)
    (hstep : ∀ s perim g s1 fr, P s perim g →
      propagate_wave s perim (g + 1) = some (s1, fr) → P s1 fr (g + 1))
    (fuel : Nat) :
    ∀ (s : Map) (perim : List PointXY) (g R : Int) (s1 : Map), P s perim g →
      wavefrontLoop plyr fuel s perim g = Outcome.returned R s1 →
      ∃ perim1 g1, P s1 perim1 g1 ∧ ((R = g1 ∧ plyr ∈ perim1) ∨ R = -1) := by
  induction fuel with
  | zero =>
    intro s perim g R s1 hP h
    unfold wavefrontLoop at h
    split at h
    · rename_i hg
      injection h with h1 h2
      subst h1 h2
      exact ⟨perim, g, hP, Or.inl ⟨rfl, (goal_reached_iff _ _).mp hg⟩⟩
    · cases h
  | succ fuel ih =>
    intro s perim g R s1 hP h
    unfold wavefrontLoop at h
    split at h
    · rename_i hg
      injection h with h1 h2
      subst h1 h2
      exact ⟨perim, g, hP, Or.inl ⟨rfl, (goal_reached_iff _ _).mp hg⟩⟩
    · cases hprop : propagate_wave s perim (g + 1) with
      | none => rw [hprop] at h; cases h
      | some r =>
        obtain ⟨s2, fr⟩ := r
        rw [hprop] at h
        simp only at h
        split at h
        · injection h with h1 h2
          subst h1 h2
          exact ⟨fr, g + 1, hstep s perim g s2 fr hP hprop, Or.inr rfl⟩
        · rw [swap_waves_length] at h
          exact ih s2 fr (g + 1) R s1 (hstep s perim g s2 fr hP hprop) h

theorem propagate_wave_keeps {s s1 : Map} {perimeter fr : List PointXY} {g : Int}
    (h : propagate_wave s perimeter g = some (s1, fr)) : s.KeepsLabels s1 := by
  intro x v hv hv0
  rcases (propagate_wave_any h).2 x with e | ⟨hf, -⟩
  · rw [e]; exact hv
  · have := hf.2
    rw [hv] at this
    injection this with this
    exact absurd this hv0

theorem propagate_wave_labeledFree {s s1 : Map} {perimeter fr : List PointXY} {g : Int}
    (hlab : s.LabeledFree) (h : propagate_wave s perimeter g = some (s1, fr)) :
    s1.LabeledFree := by
  obtain ⟨hmap, hany⟩ := propagate_wave_any h
  intro x v hv hpos
  rw [isFree_congr hmap]
  rcases hany x with e | ⟨hf, -⟩
  · exact hlab x v (e ▸ hv) hpos
  · exact hf.1

theorem wavefrontLoop_keeps {plyr : PointXY} {fuel : Nat} {s s1 : Map}
    {perim : List PointXY} {g R : Int}
    (h : wavefrontLoop plyr fuel s perim g = Outcome.returned R s1) : s.KeepsLabels s1 := by
  obtain ⟨_, _, hP, -⟩ := wavefrontLoop_induct plyr (fun t _ _ => s.KeepsLabels t)
    (fun _ _ _ _ _ hP hprop => hP.trans (propagate_wave_keeps hprop)) fuel s perim g R s1
    (Map.KeepsLabels.refl s) h
  exact hP

theorem wavefrontLoop_labeledFree {plyr : PointXY} {fuel : Nat} {s s1 : Map}
    {perim : List PointXY} {g R : Int} (hlab : s.LabeledFree)
    (h : wavefrontLoop plyr fuel s perim g = Outcome.returned R s1) : s1.LabeledFree := by
  obtain ⟨_, _, hP, -⟩ := wavefrontLoop_induct plyr (fun t _ _ => t.LabeledFree)
    (fun _ _ _ _ _ hP hprop => propagate_wave_labeledFree hP hprop) fuel s perim g R s1 hlab h
  exact hP

theorem wavefrontLoop_label {plyr : PointXY} {fuel : Nat} {s s1 : Map}
    {perim : List PointXY} {g R : Int} (hg : 1 ≤ g) (hperim : ∀ x ∈ perim, s.waveAt x = some g)
    (h : wavefrontLoop plyr fuel s perim g = Outcome.returned R s1) (hR : R ≠ -1) :
    s1.waveAt plyr = some R := by
  obtain ⟨perim1, g1, hP, hres⟩ := wavefrontLoop_induct plyr
    (fun t q k => 1 ≤ k ∧ ∀ x ∈ q, t.waveAt x = some k)
    (fun t q k t1 fr hP hprop => by
      obtain ⟨hnew, -, -, hmem, -⟩ := propagate_wave_spec (by omega) hprop
      refine ⟨by omega, fun x hx => ?_⟩
      obtain ⟨hp, hf⟩ := (hmem x).mp hx
      exact hnew x hp hf)
    fuel s perim g R s1 ⟨hg, hperim⟩ h
  rcases hres with ⟨rfl, hmem⟩ | e
  · exact hP.2 plyr hmem
  · exact absurd e hR

theorem wavefrontLoop_blocked {plyr : PointXY} {fuel : Nat} {s s1 : Map}
    {perim : List PointXY} {g R : Int} (hg : 0 ≤ g) (hnot : ¬ s.isFree plyr)
    (hperim : plyr ∉ perim)
    (h : wavefrontLoop plyr fuel s perim g = Outcome.returned R s1) : R = -1 := by
  obtain ⟨perim1, g1, hP, hres⟩ := wavefrontLoop_induct plyr
    (fun t q k => 0 ≤ k ∧ ¬ t.isFree plyr ∧ plyr ∉ q)
    (fun t q k t1 fr hP hprop => by
      obtain ⟨-, -, -, hmem, -⟩ := propagate_wave_spec (by omega) hprop
      have hmap := (propagate_wave_any hprop).1
      refine ⟨by omega, fun e => hP.2.1 ((isFree_congr hmap plyr).mp e), fun hx => ?_⟩
      exact hP.2.1 ((hmem plyr).mp hx).2.1)
    fuel s perim g R s1 ⟨hg, hnot, hperim⟩ h
  rcases hres with ⟨-, hmem⟩ | e
  · exact absurd hmem hP.2.2
  · exact e

theorem ringStates_head (plyr : PointXY) (fuel : Nat) (s : Map) (perim : List PointXY)
    (g : Int) : ∃ rest, ringStates plyr fuel s perim g = s :: rest := by
  cases fuel with
  | zero => exact ⟨[], rfl⟩
  | succ fuel =>
    unfold ringStates
    split
    · exact ⟨[], rfl⟩
    · split
      · exact ⟨[], rfl⟩
      · split
        · exact ⟨_, rfl⟩
        · exact ⟨_, rfl⟩

theorem ringStates_pairwise (plyr : PointXY) (fuel : Nat) :
    ∀ (s : Map) (perim : List PointXY) (g : Int),
      List.Pairwise Map.KeepsLabels (ringStates plyr fuel s perim g) := by
  induction fuel with
  | zero => intro s perim g; simp [ringStates]
  | succ fuel ih =>
    intro s perim g
    unfold ringStates
    split
    · simp
    · cases hprop : propagate_wave s perim (g + 1) with
      | none => simp
      | some r =>
        obtain ⟨s2, fr⟩ := r
        simp only
        have hk := propagate_wave_keeps hprop
        split
        · simp [hk]
        · have hrest := ih s2 (swap_waves fr fr.length) (g + 1)
          obtain ⟨rest, hhead⟩ := ringStates_head plyr fuel s2 (swap_waves fr fr.length) (g + 1)
          rw [List.pairwise_cons]
          refine ⟨?_, hrest⟩
          intro t ht
          rw [hhead] at ht hrest
          rcases List.mem_cons.mp ht with e | e
          · rw [e]; exact hk
          · exact hk.trans ((List.pairwise_cons.mp hrest).1 t e)

theorem ringStates_last {plyr : PointXY} {fuel : Nat} {s s1 : Map} {perim : List PointXY}
    {g R : Int} (h : wavefrontLoop plyr fuel s perim g = Outcome.returned R s1) :
    (ringStates plyr fuel s perim g).getLast? = some s1 := by
  induction fuel generalizing s perim g with
  | zero =>
    unfold wavefrontLoop at h
    split at h
    · injection h with h1 h2
      subst h2
      rfl
    · cases h
  | succ fuel ih =>
    unfold wavefrontLoop at h
    unfold ringStates
    split at h
    · rename_i hg
      injection h with h1 h2
      subst h2
      rw [if_pos hg]
      rfl
    · rename_i hg
      rw [if_neg hg]
      cases hprop : propagate_wave s perim (g + 1) with
      | none => rw [hprop] at h; cases h
      | some r =>
        obtain ⟨s2, fr⟩ := r
        rw [hprop] at h
        simp only at h ⊢
        split at h
        · rename_i hun
          injection h with h1 h2
          subst h2
          rw [if_pos hun]
          rfl
        · rename_i hun
          rw [if_neg hun]
          obtain ⟨rest, hhead⟩ := ringStates_head plyr fuel s2 (swap_waves fr fr.length) (g + 1)
          have := ih h
          rw [hhead] at this ⊢
          rw [List.getLast?_cons_cons]
          exact this

theorem wavefront_value_spec {s s1 : Map} {plyr dest : PointXY} {R : Int}
    (hrect : s.Rectangular) (hzero : s.ZeroGradient) (hfree : s.isFree dest)
    (h : wavefront s plyr dest = Outcome.returned R s1) :
    (∃ m : Nat, R = (m : Int) + 1 ∧ Reach s dest m plyr ∧ ∀ j < m, ¬ Reach s dest j plyr) ∨
      (R = -1 ∧ ∀ j, ¬ Reach s dest j plyr) := by
  obtain ⟨m, perim1, hinv, hres⟩ := wavefront_bfs hrect hzero hfree h
  rcases hres with ⟨hR, hmem⟩ | hfail
  · have := hinv.perim_level ((hinv.perim_iff plyr).mp hmem)
    exact Or.inl ⟨m, hR, this.1, this.2⟩
  · exact Or.inr hfail

theorem Map.ZeroGradient.labeledFree {s : Map} (hz : s.ZeroGradient) : s.LabeledFree := by
  intro x v hv hpos
  have := hz.waveAt hv
  omega

/-- The last of the states listed by `wavefrontStates` is the state in which
`wavefront` returns. -/
theorem wavefrontStates_last {s s1 : Map} {player destination : PointXY} {R : Int}
    (h : wavefront s player destination = Outcome.returned R s1) :
    (wavefrontStates s player destination).getLast? = some s1 := by
  unfold wavefront at h
  unfold wavefrontStates
  split at h
  · cases h
  · exact ringStates_last h

theorem Reach.stays_on_side {s : Map} {a x : PointXY} {n : Nat} (side wall : PointXY → Prop)
    (hwall : ∀ c, wall c → ¬ s.isFree c) (ha : side a)
    (hcross : ∀ A B, side A → ¬ side B → adjacent8 A B → wall A ∨ wall B)
    (h : Reach s a n x) : side x := by
  induction h with
  | start _ => exact ha
  | step hprev hw hx ih =>
    by_contra hns
    rcases hcross _ _ ih hns ⟨fun e => hns (e ▸ ih), hw⟩ with e | e
    · exact hwall _ e hprev.free
    · exact hwall _ e hx

/-! ## The claims -/

/-- Counterexample to claim C1 as stated: on `demoRoom`, with goal and target
both the Free cell `(1,1)`, `wavefront` returns ring count `1` although the
minimum number of moves from the goal to the target is `0`. -/
theorem wavefront_ring_count_exceeds_moves :
    demoRoom.Rectangular ∧ demoRoom.ZeroGradient ∧ demoRoom.BorderObstacle ∧
      demoRoom.isFree (PointXY.mk 1 1) ∧
      (wavefront demoRoom (PointXY.mk 1 1) (PointXY.mk 1 1)).value? = some 1 ∧
      MinMoves demoRoom (PointXY.mk 1 1) (PointXY.mk 1 1) 0 ∧ (1 : Int) ≠ ((0 : Nat) : Int) :=
  ⟨by decide, by decide, by decide, by decide, by decide,
    ⟨⟨[PointXY.mk 1 1], ⟨rfl, rfl, List.chain'_singleton _, by decide⟩, rfl⟩,
      fun _ hp => hp.length_pos⟩, by decide⟩

/-- Claim C1, amended: on a rectangular grid with all-zero initial gradient and
Free goal (`destination`) and target (`player`), whenever `wavefront` returns a
value `R` other than `-1` (so that no scan left the grid), `R` is one more than
the minimum number of 8-connected unit moves from the goal to the target
through Free cells. -/
theorem wavefront_ring_count_is_moves_plus_one (s s1 : Map) (player destination : PointXY)
    (R : Int) (hrect : s.Rectangular) (hzero : s.ZeroGradient)
    (hgoal : s.isFree destination) (_htarget : s.isFree player)
    (hrun : wavefront s player destination = Outcome.returned R s1) (hR : R ≠ -1) :
    ∃ n : Nat, R = (n : Int) + 1 ∧ MinMoves s destination player n := by
  rcases wavefront_value_spec hrect hzero hgoal hrun with ⟨m, hm, hr, hmin⟩ | ⟨e, -⟩
  · exact ⟨m, hm, (minMoves_iff s destination player m).mpr ⟨hr, hmin⟩⟩
  · exact absurd e hR

/-- Claim C1, amended, at a concrete input: goal `(1,1)` and target `(2,2)` of
`demoRoom` are one diagonal move apart and the ring count is `2`. -/
theorem wavefront_ring_count_is_moves_plus_one_witness :
    (demoRoom.Rectangular ∧ demoRoom.ZeroGradient ∧ demoRoom.isFree (PointXY.mk 1 1) ∧
      demoRoom.isFree (PointXY.mk 2 2) ∧
      wavefront demoRoom (PointXY.mk 2 2) (PointXY.mk 1 1) = Outcome.returned 2 demoRoomDone ∧
      (2 : Int) ≠ -1) ∧
    ∃ n : Nat, (2 : Int) = (n : Int) + 1 ∧
      MinMoves demoRoom (PointXY.mk 1 1) (PointXY.mk 2 2) n :=
  ⟨by decide,
    wavefront_ring_count_is_moves_plus_one demoRoom demoRoomDone (PointXY.mk 2 2)
      (PointXY.mk 1 1) 2 (by decide) (by decide) (by decide) (by decide) (by decide)
      (by decide)⟩

/-- Claim C2: on a rectangular grid with all-zero initial gradient and Obstacle
border, for a Free goal and an in-bounds target, `wavefront` returns, and the
returned value is `-1` exactly when no 8-connected path of Free cells joins the
goal to the target.  In particular it is `-1` whenever a wall of Obstacle cells
separates them: the goal is on one side, the target is not, and every unit move
that leaves the side starts or ends on a wall cell. -/
theorem wavefront_unreachable_iff_no_path (s : Map) (player destination : PointXY)
    (hrect : s.Rectangular) (hzero : s.ZeroGradient) (hborder : s.BorderObstacle)
    (hgoal : s.isFree destination) (_htarget : (s.mapAt player).isSome) :
    ∃ R s1, wavefront s player destination = Outcome.returned R s1 ∧
      (R = -1 ↔ ¬ Connected s destination player) ∧
      ∀ side wall : PointXY → Prop, (∀ c, wall c → ¬ s.isFree c) → side destination →
        ¬ side player →
        (∀ A B, side A → ¬ side B → adjacent8 A B → wall A ∨ wall B) → R = -1 := by
  obtain ⟨R, s1, hrun⟩ := wavefront_returns player hrect hzero hborder hgoal
  refine ⟨R, s1, hrun, ?_⟩
  rw [connected_iff]
  rcases wavefront_value_spec hrect hzero hgoal hrun with ⟨m, hm, hr, -⟩ | ⟨e, hno⟩
  · refine ⟨⟨fun e => by omega, fun hnc => absurd ⟨m, hr⟩ hnc⟩, ?_⟩
    intro side wall hwall hside hnot hcross
    exact absurd (hr.stays_on_side side wall hwall hside hcross) hnot
  · exact ⟨⟨fun _ ⟨n, hn⟩ => hno n hn, fun _ => e⟩, fun _ _ _ _ _ _ => e⟩

/-- Claim C2 at a concrete input: in `demoWall` the goal `(1,1)` and the target
`(3,3)` lie on either side of a complete Obstacle wall. -/
theorem wavefront_unreachable_iff_no_path_witness :
    (demoWall.Rectangular ∧ demoWall.ZeroGradient ∧ demoWall.BorderObstacle ∧
      demoWall.isFree (PointXY.mk 1 1) ∧ (demoWall.mapAt (PointXY.mk 3 3)).isSome) ∧
    ∃ R s1, wavefront demoWall (PointXY.mk 3 3) (PointXY.mk 1 1) = Outcome.returned R s1 ∧
      (R = -1 ↔ ¬ Connected demoWall (PointXY.mk 1 1) (PointXY.mk 3 3)) ∧
      ∀ side wall : PointXY → Prop, (∀ c, wall c → ¬ demoWall.isFree c) →
        side (PointXY.mk 1 1) → ¬ side (PointXY.mk 3 3) →
        (∀ A B, side A → ¬ side B → adjacent8 A B → wall A ∨ wall B) → R = -1 :=
  ⟨by decide,
    wavefront_unreachable_iff_no_path demoWall (PointXY.mk 3 3) (PointXY.mk 1 1) (by decide)
      (by decide) (by decide) (by decide) (by decide)⟩

/-- Claim C3: whenever `wavefront` returns a value `R` other than `-1` (no scan
having left the grid), the gradient stored for the target cell on return is
`R`. -/
theorem wavefront_returns_target_label (s s1 : Map) (player destination : PointXY) (R : Int)
    (hrun : wavefront s player destination = Outcome.returned R s1) (hR : R ≠ -1) :
    s1.waveAt player = some R := by
  unfold wavefront at hrun
  split at hrun
  · cases hrun
  · rename_i wv hset
    refine wavefrontLoop_label (le_refl _) ?_ hrun hR
    intro x hx
    rw [List.mem_singleton] at hx
    subst hx
    rw [waveAt_after_write (s := s) (t := Map.mk s.map_ wv) (x := destination) hset]
    simp

/-- Claim C3 at a concrete input: the run on `demoRoom` from goal `(1,1)` to
target `(2,2)` returns `2`, the label of `(2,2)`. -/
theorem wavefront_returns_target_label_witness :
    (wavefront demoRoom (PointXY.mk 2 2) (PointXY.mk 1 1) = Outcome.returned 2 demoRoomDone ∧
      (2 : Int) ≠ -1) ∧
    demoRoomDone.waveAt (PointXY.mk 2 2) = some 2 :=
  ⟨by decide,
    wavefront_returns_target_label demoRoom demoRoomDone (PointXY.mk 2 2) (PointXY.mk 1 1) 2
      (by decide) (by decide)⟩

/-- Claim C4: on a rectangular grid whose border cells are all Obstacle, with
all-zero initial gradient, a Free goal and any target, no read or write of
`map_` or `wave_` made by `wavefront` and its calls of `propagate_wave` leaves
the grid: the run never takes the out-of-bounds branch. -/
theorem wavefront_stays_in_bounds (s : Map) (player destination : PointXY)
    (hrect : s.Rectangular) (hborder : s.BorderObstacle) (hzero : s.ZeroGradient)
    (hgoal : s.isFree destination) :
    wavefront s player destination ≠ Outcome.outOfBounds :=
  wavefront_inBounds player hrect hzero hborder hgoal

/-- Claim C4 at a concrete input: `demoRoom`, goal `(1,1)`, a target outside the
grid. -/
theorem wavefront_stays_in_bounds_witness :
    (demoRoom.Rectangular ∧ demoRoom.BorderObstacle ∧ demoRoom.ZeroGradient ∧
      demoRoom.isFree (PointXY.mk 1 1)) ∧
    wavefront demoRoom (PointXY.mk 9 (-4)) (PointXY.mk 1 1) ≠ Outcome.outOfBounds :=
  ⟨by decide,
    wavefront_stays_in_bounds demoRoom (PointXY.mk 9 (-4)) (PointXY.mk 1 1) (by decide)
      (by decide) (by decide) (by decide)⟩

/-- Claim C5: on a rectangular grid with Obstacle border, for Free cells `a` and
`b`, `wavefront` on a fresh all-zero gradient returns the same value (the same
ring count, or `-1` both times) with goal `a` and target `b` as with goal `b`
and target `a`. -/
theorem wavefront_symmetric (s : Map) (a b : PointXY) (hrect : s.Rectangular)
    (hzero : s.ZeroGradient) (hborder : s.BorderObstacle) (ha : s.isFree a)
    (hb : s.isFree b) :
    (wavefront s b a).value? = (wavefront s a b).value? ∧
      ((wavefront s b a).value?).isSome := by
  obtain ⟨R1, s1, h1⟩ := wavefront_returns b hrect hzero hborder ha
  obtain ⟨R2, s2, h2⟩ := wavefront_returns a hrect hzero hborder hb
  rw [h1, h2]
  refine ⟨?_, rfl⟩
  simp only [Outcome.value?, Option.some.injEq]
  rcases wavefront_value_spec hrect hzero ha h1 with ⟨m1, e1, r1, min1⟩ | ⟨e1, no1⟩
  · rcases wavefront_value_spec hrect hzero hb h2 with ⟨m2, e2, r2, min2⟩ | ⟨e2, no2⟩
    · have h12 : ¬ m1 < m2 := fun hlt => min2 m1 hlt r1.symm
      have h21 : ¬ m2 < m1 := fun hlt => min1 m2 hlt r2.symm
      omega
    · exact absurd r1.symm (no2 m1)
  · rcases wavefront_value_spec hrect hzero hb h2 with ⟨m2, e2, r2, min2⟩ | ⟨e2, no2⟩
    · exact absurd r2.symm (no1 m2)
    · omega

/-- Claim C5 at a concrete input: the cells `(1,1)` and `(2,2)` of `demoRoom`. -/
theorem wavefront_symmetric_witness :
    (demoRoom.Rectangular ∧ demoRoom.ZeroGradient ∧ demoRoom.BorderObstacle ∧
      demoRoom.isFree (PointXY.mk 1 1) ∧ demoRoom.isFree (PointXY.mk 2 2)) ∧
    ((wavefront demoRoom (PointXY.mk 2 2) (PointXY.mk 1 1)).value? =
        (wavefront demoRoom (PointXY.mk 1 1) (PointXY.mk 2 2)).value? ∧
      ((wavefront demoRoom (PointXY.mk 2 2) (PointXY.mk 1 1)).value?).isSome) :=
  ⟨by decide,
    wavefront_symmetric demoRoom (PointXY.mk 1 1) (PointXY.mk 2 2) (by decide) (by decide)
      (by decide) (by decide) (by decide)⟩

/-- Counterexample to claim C6 as stated.  On `demoSolid`, which has no Free
cell and an all-zero gradient, the run of `wavefront` with goal `(1,1)` and
target `(0,0)` ends in a state where the Obstacle cell `(1,1)` has gradient
`1`.  On `demoField`, whose gradient is all-zero, the call of `propagate_wave`
with the perimeter `[(1,1)]`, whose window is in bounds, has no result: the
ninth Free cell of the window has no slot left in the frontier array of
`DIRECTIONS * 1` cells. -/
theorem wavefront_labels_obstacle_goal :
    (demoSolid.ZeroGradient ∧ ¬ demoSolid.isFree (PointXY.mk 1 1) ∧
      wavefront demoSolid (PointXY.mk 0 0) (PointXY.mk 1 1) =
        Outcome.returned (-1) demoSolidDone ∧
      demoSolidDone.waveAt (PointXY.mk 1 1) = some 1 ∧ ¬ demoSolidDone.LabeledFree) ∧
    (demoField.ZeroGradient ∧ (∀ p ∈ [PointXY.mk 1 1], demoField.WindowInBounds p) ∧
      propagate_wave demoField [PointXY.mk 1 1] 1 = none) :=
  ⟨⟨by decide, by decide, by decide, by decide,
    fun h => absurd (h (PointXY.mk 1 1) 1 (by decide) (by decide)) (by decide)⟩,
    by decide, by decide, by decide⟩

/-- Claim C6, amended: `propagate_wave` preserves labeled-implies-Free (for
every state satisfying it, every perimeter whose 3x3 windows are in bounds and
whose cells all have a non-zero gradient, so that the frontier fits its array,
and every ring value, the call returns and the new state satisfies it); and a
run of `wavefront` started from an all-zero gradient with a Free goal ends in a
state where every cell with gradient greater than `0` is Free. -/
theorem labeled_implies_free_preserved :
    (∀ (s : Map) (perimeter : List PointXY) (gradient : Int), s.LabeledFree →
      (∀ p ∈ perimeter, s.WindowInBounds p) → s.AllLabeled perimeter →
      ∃ s1 fr, propagate_wave s perimeter gradient = some (s1, fr) ∧ s1.LabeledFree) ∧
    (∀ (s s1 : Map) (player destination : PointXY) (R : Int), s.ZeroGradient →
      s.isFree destination → wavefront s player destination = Outcome.returned R s1 →
      s1.LabeledFree) := by
  constructor
  · intro s perimeter gradient hlab hin hall
    obtain ⟨s1, fr, h⟩ := propagate_wave_total s perimeter gradient hin hall
    exact ⟨s1, fr, h, propagate_wave_labeledFree hlab h⟩
  · intro s s1 player destination R hzero hgoal hrun
    unfold wavefront at hrun
    split at hrun
    · cases hrun
    · rename_i wv hset
      refine wavefrontLoop_labeledFree ?_ hrun
      intro x v hv hpos
      rw [waveAt_after_write (s := s) (t := Map.mk s.map_ wv) (x := destination) hset] at hv
      by_cases hx : x = destination
      · subst hx; exact hgoal
      · rw [if_neg hx] at hv
        have := hzero.waveAt hv
        omega

/-- Claim C6, amended, at concrete inputs: the run on `demoRoom` from goal
`(1,1)` to target `(2,2)`, and one more expansion, with ring value `3`, from the
perimeter `[(2,2)]` of the state `demoRoomDone` in which that run ends. -/
theorem labeled_implies_free_preserved_witness :
    (demoRoom.ZeroGradient ∧ demoRoom.isFree (PointXY.mk 1 1) ∧
      wavefront demoRoom (PointXY.mk 2 2) (PointXY.mk 1 1) = Outcome.returned 2 demoRoomDone ∧
      (∀ p ∈ [PointXY.mk 2 2], demoRoomDone.WindowInBounds p) ∧
      demoRoomDone.waveAt (PointXY.mk 2 2) = some 2) ∧
    demoRoomDone.LabeledFree ∧
    ∃ s1 fr, propagate_wave demoRoomDone [PointXY.mk 2 2] 3 = some (s1, fr) ∧
      s1.LabeledFree :=
  ⟨by decide,
    labeled_implies_free_preserved.2 demoRoom demoRoomDone (PointXY.mk 2 2) (PointXY.mk 1 1) 2
      (by decide) (by decide) (by decide),
    labeled_implies_free_preserved.1 demoRoomDone [PointXY.mk 2 2] 3
      (labeled_implies_free_preserved.2 demoRoom demoRoomDone (PointXY.mk 2 2)
        (PointXY.mk 1 1) 2 (by decide) (by decide) (by decide))
      (by decide)
      (fun p hp => ⟨2, by rw [List.mem_singleton.mp hp]; decide, by decide⟩)⟩

/-- Counterexample to claim C7 as stated: in `demoFieldMarked`, where the
cell `(3,3)` has gradient `4`, the call of `propagate_wave` with the perimeter
`[(1,1)]`, whose window is in bounds, and ring value `5` has no result: the scan
finds nine Free cells with gradient `0` and the frontier array has
`DIRECTIONS * 1` slots. -/
theorem fresh_perimeter_overflows_frontier :
    (∀ p ∈ [PointXY.mk 1 1], demoFieldMarked.WindowInBounds p) ∧
      demoFieldMarked.waveAt (PointXY.mk 3 3) = some 4 ∧
      (visitAll 5 (windowCells [PointXY.mk 1 1]) (demoFieldMarked, [])).map
        (fun r => r.2.length) = some 9 ∧
      DIRECTIONS * [PointXY.mk 1 1].length = 8 ∧
      propagate_wave demoFieldMarked [PointXY.mk 1 1] 5 = none := by
  decide

/-- Claim C7, amended: `propagate_wave` leaves unchanged the gradient of every
cell whose gradient was non-zero before the call (for every state, every
perimeter whose 3x3 windows are in bounds and whose cells all have a non-zero
gradient, so that the frontier fits its array, and every ring value, the call
returns and keeps those gradients); hence among the states of the ring
expansions of one run of `wavefront`, a gradient that is non-zero in one state
is the same in every later state. -/
theorem gradient_is_written_once :
    (∀ (s : Map) (perimeter : List PointXY) (gradient : Int),
      (∀ p ∈ perimeter, s.WindowInBounds p) → s.AllLabeled perimeter →
      ∃ s1 fr, propagate_wave s perimeter gradient = some (s1, fr) ∧ s.KeepsLabels s1) ∧
    (∀ (s : Map) (player destination : PointXY),
      List.Pairwise Map.KeepsLabels (wavefrontStates s player destination)) := by
  constructor
  · intro s perimeter gradient hin hall
    obtain ⟨s1, fr, h⟩ := propagate_wave_total s perimeter gradient hin hall
    exact ⟨s1, fr, h, propagate_wave_keeps h⟩
  · intro s player destination
    unfold wavefrontStates
    split
    · exact List.Pairwise.nil
    · exact ringStates_pairwise _ _ _ _ _

/-- Claim C7, amended, at a concrete input: one expansion with ring value `5`
from the perimeter `[(2,2)]` in the state `demoRoomDone`, whose Free cells are
all labelled. -/
theorem gradient_is_written_once_witness :
    ((∀ p ∈ [PointXY.mk 2 2], demoRoomDone.WindowInBounds p) ∧
      demoRoomDone.waveAt (PointXY.mk 2 2) = some 2) ∧
    ∃ s1 fr, propagate_wave demoRoomDone [PointXY.mk 2 2] 5 = some (s1, fr) ∧
      demoRoomDone.KeepsLabels s1 :=
  ⟨by decide,
    gradient_is_written_once.1 demoRoomDone [PointXY.mk 2 2] 5 (by decide)
      (fun p hp => ⟨2, by rw [List.mem_singleton.mp hp]; decide, by decide⟩)⟩

/-- Claim C8: on a rectangular grid with Obstacle border, all-zero initial
gradient and Free goal, `wavefront` returns (a ring count or `-1`), and in the
state it returns any two 8-adjacent cells that both have non-zero gradient have
gradients that differ by at most `1`. -/
theorem adjacent_labels_differ_by_at_most_one (s : Map) (player destination : PointXY)
    (hrect : s.Rectangular) (hzero : s.ZeroGradient) (hborder : s.BorderObstacle)
    (hgoal : s.isFree destination) :
    ∃ R s1, wavefront s player destination = Outcome.returned R s1 ∧
      ∀ (A B : PointXY) (vA vB : Int), adjacent8 A B → s1.waveAt A = some vA →
        s1.waveAt B = some vB → vA ≠ 0 → vB ≠ 0 → |vA - vB| ≤ 1 := by
  obtain ⟨R, s1, hrun⟩ := wavefront_returns player hrect hzero hborder hgoal
  refine ⟨R, s1, hrun, ?_⟩
  obtain ⟨m, perim1, hinv, -⟩ := wavefront_bfs hrect hzero hgoal hrun
  intro A B vA vB hadj hA hB hA0 hB0
  obtain ⟨kA, -, eA, rA, minA⟩ := hinv.sound A vA hA hA0
  obtain ⟨kB, -, eB, rB, minB⟩ := hinv.sound B vB hB hB0
  have h1 : ¬ kA + 1 < kB := fun hlt => minB (kA + 1) hlt (Reach.step rA hadj.2 rB.free)
  have h2 : ¬ kB + 1 < kA :=
    fun hlt => minA (kB + 1) hlt (Reach.step rB (inWindow_symm hadj.2) rA.free)
  rw [abs_le]
  omega

/-- Claim C8 at a concrete input: the run on `demoRoom` from goal `(1,1)` to
target `(2,2)`. -/
theorem adjacent_labels_differ_by_at_most_one_witness :
    (demoRoom.Rectangular ∧ demoRoom.ZeroGradient ∧ demoRoom.BorderObstacle ∧
      demoRoom.isFree (PointXY.mk 1 1)) ∧
    ∃ R s1, wavefront demoRoom (PointXY.mk 2 2) (PointXY.mk 1 1) = Outcome.returned R s1 ∧
      ∀ (A B : PointXY) (vA vB : Int), adjacent8 A B → s1.waveAt A = some vA →
        s1.waveAt B = some vB → vA ≠ 0 → vB ≠ 0 → |vA - vB| ≤ 1 :=
  ⟨by decide,
    adjacent_labels_differ_by_at_most_one demoRoom (PointXY.mk 2 2) (PointXY.mk 1 1)
      (by decide) (by decide) (by decide) (by decide)⟩

/-- Counterexample to claim C9 as stated: on `demoField`, the call of
`propagate_wave` with the perimeter `[(1,1)]`, whose window is in bounds, and
the non-zero ring value `2` returns no frontier: the scan finds nine Free cells
with gradient `0` and the frontier array has `DIRECTIONS * 1` slots. -/
theorem fresh_member_returns_no_frontier :
    ((2 : Int) ≠ 0 ∧ ∀ p ∈ [PointXY.mk 1 1], demoField.WindowInBounds p) ∧
      (visitAll 2 (windowCells [PointXY.mk 1 1]) (demoField, [])).map
        (fun r => r.2.length) = some 9 ∧
      DIRECTIONS * [PointXY.mk 1 1].length = 8 ∧
      propagate_wave demoField [PointXY.mk 1 1] 2 = none := by
  decide

/-- Claim C9, amended: for every state, every perimeter whose 3x3 windows are
in bounds and whose cells all have a non-zero gradient, so that the frontier
fits its array (members may share neighbours), and every non-zero ring value,
`propagate_wave` returns a frontier that contains each cell at most once. -/
theorem frontier_has_no_duplicates (s : Map) (perimeter : List PointXY) (gradient : Int)
    (hg : gradient ≠ 0) (hin : ∀ p ∈ perimeter, s.WindowInBounds p)
    (hlab : s.AllLabeled perimeter) :
    ∃ s1 fr, propagate_wave s perimeter gradient = some (s1, fr) ∧ fr.Nodup := by
  obtain ⟨s1, fr, h⟩ := propagate_wave_total s perimeter gradient hin hlab
  exact ⟨s1, fr, h, (propagate_wave_spec hg h).2.2.1⟩

/-- Claim C9, amended, at a concrete input: the perimeter `[(1,1), (2,2)]` of
`demoFieldPair`, whose two windows share the Free cells `(2,1)` and `(1,2)`. -/
theorem frontier_has_no_duplicates_witness :
    ((2 : Int) ≠ 0 ∧
      (∀ p ∈ [PointXY.mk 1 1, PointXY.mk 2 2], demoFieldPair.WindowInBounds p) ∧
      demoFieldPair.waveAt (PointXY.mk 1 1) = some 1 ∧
      demoFieldPair.waveAt (PointXY.mk 2 2) = some 1) ∧
    ∃ s1 fr,
      propagate_wave demoFieldPair [PointXY.mk 1 1, PointXY.mk 2 2] 2 = some (s1, fr) ∧
        fr.Nodup :=
  ⟨by decide,
    frontier_has_no_duplicates demoFieldPair [PointXY.mk 1 1, PointXY.mk 2 2] 2 (by decide)
      (by decide)
      (fun p hp => ⟨1, by
        rcases List.mem_cons.mp hp with e | e
        · rw [e]; decide
        · rw [List.mem_singleton.mp e]; decide, by decide⟩)⟩

/-- Counterexample to claim C10 as stated: with the Obstacle target `(0,0)` and
the Free goal `(1,1)` of `demoRoom`, `wavefront` labels the whole room before it
returns `-1`; with the Obstacle cell `(1,1)` of `demoSolid` as goal and target,
`wavefront` returns the ring count `1`. -/
theorem wavefront_runs_on_invalid_cells :
    (¬ demoRoom.isFree (PointXY.mk 0 0) ∧ demoRoom.ZeroGradient ∧
      wavefront demoRoom (PointXY.mk 0 0) (PointXY.mk 1 1) =
        Outcome.returned (-1) demoRoomDone ∧
      demoRoomDone.wave_ ≠ demoRoom.wave_) ∧
    (¬ demoSolid.isFree (PointXY.mk 1 1) ∧ demoSolid.ZeroGradient ∧
      wavefront demoSolid (PointXY.mk 1 1) (PointXY.mk 1 1) =
        Outcome.returned 1 demoSolidDone ∧
      demoSolidDone.wave_ ≠ demoSolid.wave_) := by
  decide

/-- Claim C10, amended: `wavefront` does not check that goal and target are
Free.  Whenever it returns, the goal cell has gradient `1`, whether it is Free
or not, so the gradient grid has been modified; and if the target is not Free
and is not the goal cell, no ring count is returned as a success: the returned
value is `-1`. -/
theorem wavefront_without_validation (s s1 : Map) (player destination : PointXY) (R : Int)
    (hrun : wavefront s player destination = Outcome.returned R s1) :
    s1.waveAt destination = some 1 ∧
      (¬ s.isFree player → player ≠ destination → R = -1) := by
  unfold wavefront at hrun
  split at hrun
  · cases hrun
  · rename_i wv hset
    have hw := waveAt_after_write (s := s) (t := Map.mk s.map_ wv) (x := destination) hset
    constructor
    · exact wavefrontLoop_keeps hrun destination 1 (by rw [hw]; simp) Int.one_ne_zero
    · intro hnot hne
      have hnot1 : ¬ (Map.mk s.map_ wv).isFree player := hnot
      refine wavefrontLoop_blocked (g := 1) (by omega) hnot1 ?_ hrun
      rw [List.mem_singleton]
      exact hne

/-- Claim C10, amended, at a concrete input: the Obstacle target `(0,0)` and the
Free goal `(1,1)` of `demoRoom`. -/
theorem wavefront_without_validation_witness :
    wavefront demoRoom (PointXY.mk 0 0) (PointXY.mk 1 1) = Outcome.returned (-1) demoRoomDone ∧
    (demoRoomDone.waveAt (PointXY.mk 1 1) = some 1 ∧
      (¬ demoRoom.isFree (PointXY.mk 0 0) → PointXY.mk 0 0 ≠ PointXY.mk 1 1 →
        (-1 : Int) = -1)) :=
  ⟨by decide,
    wavefront_without_validation demoRoom demoRoomDone (PointXY.mk 0 0) (PointXY.mk 1 1) (-1)
      (by decide)⟩

/-! ## Loading and rendering one cell -/

theorem signed8_range (b : Nat) (hb : b < 256) : -128 ≤ signed8 b ∧ signed8 b ≤ 127 := by
  unfold signed8
  split <;> omega

theorem charByte_signed8 (b : Nat) (hb : b < 256) : charByte (signed8 b) = b := by
  unfold charByte signed8
  split <;> omega

theorem read_cell_eq_zero (b : Nat) (hb : b < 256) : read_cell b = 0 ↔ b = 255 := by
  unfold read_cell signed8
  split <;> omega

theorem wavefrontLoop_reached {plyr : PointXY} {perim : List PointXY}
    (h : goal_reached perim plyr = true) (fuel : Nat) (s : Map) (g : Int) :
    wavefrontLoop plyr fuel s perim g = Outcome.returned g s := by
  cases fuel <;> simp [wavefrontLoop, h]

/-- Claim C11: for every byte value `v` in 0..255, the occupancy value that
`Map::read` stores for it, `(v as a signed 8-bit integer) + 1`, is `0` exactly
when `v = 255`; so a cell loaded from `v` is Free, in the sense of the test
`map_[r][c] == 0` of `propagate_wave`, exactly when `v = 255`. -/
theorem read_classifies_bytes (v : Nat) (hv : v < 256) :
    (read_cell v = 0 ↔ v = 255) ∧
      ∀ (s : Map) (p : PointXY), s.mapAt p = some (read_cell v) → (s.isFree p ↔ v = 255) := by
  refine ⟨read_cell_eq_zero v hv, fun s p hp => ?_⟩
  unfold Map.isFree
  rw [hp, Option.some.injEq]
  exact read_cell_eq_zero v hv

/-- Claim C11 at a concrete input: the byte `100`, stored as `101`. -/
theorem read_classifies_bytes_witness :
    100 < 256 ∧ ((read_cell 100 = 0 ↔ 100 = 255) ∧
      ∀ (s : Map) (p : PointXY), s.mapAt p = some (read_cell 100) →
        (s.isFree p ↔ 100 = 255)) :=
  ⟨by decide, read_classifies_bytes 100 (by decide)⟩

/-- Claim C12: for every grid and every in-bounds cell `c` (a valid index of
`map_` and of `wave_`), `wavefront` called with goal = target = `c` returns ring
count `1`. -/
theorem wavefront_goal_equals_target (s : Map) (c : PointXY) (_hmap : (s.mapAt c).isSome)
    (hwave : (s.waveAt c).isSome) : (wavefront s c c).value? = some 1 := by
  obtain ⟨w, hw⟩ := Option.isSome_iff_exists.mp hwave
  obtain ⟨wv, hset⟩ := setAt_of_cellAt 1 hw
  unfold wavefront
  rw [hset]
  simp only
  rw [wavefrontLoop_reached ((goal_reached_iff _ _).mpr (List.mem_singleton.mpr rfl))]
  rfl

/-- Claim C12 at a concrete input: the Obstacle corner `(0,0)` of `demoWall`. -/
theorem wavefront_goal_equals_target_witness :
    ((demoWall.mapAt (PointXY.mk 0 0)).isSome ∧ (demoWall.waveAt (PointXY.mk 0 0)).isSome) ∧
    (wavefront demoWall (PointXY.mk 0 0) (PointXY.mk 0 0)).value? = some 1 :=
  ⟨by decide,
    wavefront_goal_equals_target demoWall (PointXY.mk 0 0) (by decide) (by decide)⟩

/-- Claim C13: on the 5x5 scenario with the wall across row 2 and the gap at
column 2, placed inside an Obstacle border (`scenarioGap`, coordinates shifted
by one), with all-zero gradient, goal `(0,0)` (here `(1,1)`) and target `(4,4)`
(here `(5,5)`), `wavefront` returns ring count `5`. -/
theorem scenario_gap_returns_five :
    (scenarioGap.Rectangular ∧ scenarioGap.BorderObstacle ∧ scenarioGap.ZeroGradient) ∧
      (wavefront scenarioGap (PointXY.mk 5 5) (PointXY.mk 1 1)).value? = some 5 :=
  ⟨by decide, by decide⟩

/-- Counterexample to claim C14 as stated: on the 3x3 scenario with the
Obstacle centre, placed inside an Obstacle border (`scenarioPillar`), goal
`(0,0)` (here `(1,1)`) and target `(2,2)` (here `(3,3)`), the value returned by
`wavefront` is not `2`. -/
theorem scenario_pillar_does_not_return_two :
    (scenarioPillar.Rectangular ∧ scenarioPillar.BorderObstacle ∧
      scenarioPillar.ZeroGradient) ∧
      (wavefront scenarioPillar (PointXY.mk 3 3) (PointXY.mk 1 1)).value? ≠ some 2 :=
  ⟨by decide, by decide⟩

/-- Claim C14, amended: on the 3x3 scenario with the Obstacle centre, placed
inside an Obstacle border (`scenarioPillar`), with all-zero gradient, goal
`(0,0)` (here `(1,1)`) and target `(2,2)` (here `(3,3)`), `wavefront` returns
ring count `4`: the shortest way round the centre takes three moves. -/
theorem scenario_pillar_returns_four :
    (wavefront scenarioPillar (PointXY.mk 3 3) (PointXY.mk 1 1)).value? = some 4 ∧
      MinMoves scenarioPillar (PointXY.mk 1 1) (PointXY.mk 3 3) 3 := by
  have hrun : (wavefront scenarioPillar (PointXY.mk 3 3) (PointXY.mk 1 1)).value? = some 4 := by
    decide
  refine ⟨hrun, ?_⟩
  cases h : wavefront scenarioPillar (PointXY.mk 3 3) (PointXY.mk 1 1) with
  | returned R s1 =>
    rw [h] at hrun
    simp only [Outcome.value?, Option.some.injEq] at hrun
    subst hrun
    rcases wavefront_value_spec (by decide) (by decide) (by decide) h with
      ⟨m, hm, hr, hmin⟩ | ⟨e, -⟩
    · have hm3 : m = 3 := by omega
      subst hm3
      exact (minMoves_iff _ _ _ 3).mpr ⟨hr, hmin⟩
    · omega
  | outOfBounds => rw [h] at hrun; cases hrun
  | outOfFuel => rw [h] at hrun; cases hrun

/-- Claim C15: for every raw byte `b` and every grid state in which every
labelled cell is Free (gradients being non-negative), the byte that
`output_wavefront` emits for a cell loaded from `b` is `b` whenever the cell is
an Obstacle (`b ≠ 255`) or an unvisited Free cell (gradient `0`), whatever the
stored value of the Obstacle. -/
theorem output_keeps_raw_byte (s : Map) (p : PointXY) (b : Nat) (w max_grd : Int)
    (hb : b < 256) (hlab : s.LabeledFree) (hmap : s.mapAt p = some (read_cell b))
    (hwave : s.waveAt p = some w) (hw : 0 ≤ w) (hcell : b ≠ 255 ∨ w = 0) :
    output_cell (read_cell b) w max_grd = b := by
  have hw0 : w = 0 := by
    by_contra hne
    have hfree := hlab p w hwave (by omega)
    unfold Map.isFree at hfree
    rw [hmap, Option.some.injEq, read_cell_eq_zero b hb] at hfree
    rcases hcell with e | e
    · exact e hfree
    · exact hne e
  unfold output_cell
  rw [if_pos (Or.inr hw0)]
  have : read_cell b - 1 = signed8 b := by unfold read_cell; omega
  rw [this]
  exact charByte_signed8 b hb

/-- Claim C15 at a concrete input: the Obstacle cell of `demoRaster` loaded
from the byte `100` (stored value `101`). -/
theorem output_keeps_raw_byte_witness :
    (100 < 256 ∧ demoRaster.mapAt (PointXY.mk 0 0) = some (read_cell 100) ∧
      demoRaster.waveAt (PointXY.mk 0 0) = some 0 ∧ (0 : Int) ≤ 0 ∧
      (100 ≠ 255 ∨ (0 : Int) = 0)) ∧
    output_cell (read_cell 100) 0 7 = 100 :=
  ⟨by decide,
    output_keeps_raw_byte demoRaster (PointXY.mk 0 0) 100 0 7 (by decide)
      (Map.ZeroGradient.labeledFree (by decide)) (by decide) (by decide) (by decide)
      (by decide)⟩

/-! ## Range of the gradients after a run -/

theorem wavefrontLoop_bounds {plyr : PointXY} {fuel : Nat} {s s1 : Map}
    {perim : List PointXY} {g R : Int} (hg : 1 ≤ g)
    (hs : ∀ x v, s.waveAt x = some v → 0 ≤ v ∧ v ≤ g)
    (h : wavefrontLoop plyr fuel s perim g = Outcome.returned R s1) (hR : R ≠ -1) :
    1 ≤ R ∧ ∀ x v, s1.waveAt x = some v → 0 ≤ v ∧ v ≤ R := by
  obtain ⟨perim1, g1, hP, hres⟩ := wavefrontLoop_induct plyr
    (fun t _ k => 1 ≤ k ∧ ∀ x v, t.waveAt x = some v → 0 ≤ v ∧ v ≤ k)
    (fun t q k t1 fr hP hprop => by
      refine ⟨by omega, fun x v hv => ?_⟩
      rcases (propagate_wave_any hprop).2 x with e | ⟨-, e⟩
      · have := hP.2 x v (e ▸ hv)
        omega
      · rw [e] at hv
        injection hv with hv
        omega)
    fuel s perim g R s1 ⟨hg, hs⟩ h
  rcases hres with ⟨rfl, -⟩ | e
  · exact hP
  · exact absurd e hR

/-- After a successful run of `wavefront` from an all-zero gradient returning
`R`, every gradient of the grid lies between `0` and `R`. -/
theorem wavefront_bounds {s s1 : Map} {plyr dest : PointXY} {R : Int}
    (hzero : s.ZeroGradient) (h : wavefront s plyr dest = Outcome.returned R s1)
    (hR : R ≠ -1) : 1 ≤ R ∧ ∀ x v, s1.waveAt x = some v → 0 ≤ v ∧ v ≤ R := by
  unfold wavefront at h
  split at h
  · cases h
  · rename_i wv hset
    refine wavefrontLoop_bounds (le_refl _) ?_ h hR
    intro x v hv
    rw [waveAt_after_write (s := s) (t := Map.mk s.map_ wv) (x := dest) hset] at hv
    by_cases hx : x = dest
    · rw [if_pos hx] at hv
      injection hv with hv
      omega
    · rw [if_neg hx] at hv
      have := hzero.waveAt hv
      omega

/-! ## A long corridor -/

theorem corridor_free (n : Nat) (p : PointXY) :
    (corridor n).isFree p ↔ p.y_ = 1 ∧ 1 ≤ p.x_ ∧ p.x_ ≤ n := by
  unfold Map.isFree Map.mapAt cellAt corridor
  by_cases h0 : 0 ≤ p.y_ ∧ 0 ≤ p.x_
  · obtain ⟨hy, hx⟩ := h0
    rw [if_pos ⟨hy, hx⟩]
    obtain ⟨i, hi⟩ : ∃ i : Nat, p.y_.toNat = i := ⟨_, rfl⟩
    obtain ⟨j, hj⟩ : ∃ j : Nat, p.x_.toNat = j := ⟨_, rfl⟩
    rw [hi, hj]
    have hyi : p.y_ = i := by omega
    have hxj : p.x_ = j := by omega
    rw [hyi, hxj]
    match i with
    | 0 =>
      simp only [List.getElem?_cons_zero, List.getElem?_replicate]
      split <;> simp
    | 1 =>
      simp only [List.getElem?_cons_succ, List.getElem?_cons_zero]
      match j with
      | 0 => simp
      | k + 1 =>
        simp only [List.getElem?_cons_succ, List.getElem?_append, List.length_replicate,
          List.getElem?_replicate]
        by_cases hk : k < n
        · simp only [hk, if_true]
          constructor
          · intro _; omega
          · intro _; trivial
        · simp only [hk, if_false]
          constructor
          · intro h
            exfalso
            match hm : k - n with
            | 0 => rw [hm] at h; simp at h
            | m + 1 => rw [hm] at h; simp at h
          · intro h; push_cast at h; omega
    | 2 =>
      simp only [List.getElem?_cons_succ, List.getElem?_cons_zero, List.getElem?_replicate]
      split <;> simp
    | i + 3 =>
      simp only [List.getElem?_cons_succ, List.getElem?_nil]
      constructor
      · intro h; cases h
      · intro h; push_cast at h; omega
  · rw [if_neg h0]
    constructor
    · intro h; cases h
    · intro h; exact absurd ⟨by omega, by omega⟩ h0

theorem corridor_height (n : Nat) : (corridor n).height = 3 := rfl

theorem corridor_width (n : Nat) : (corridor n).width = n + 2 := by
  simp [Map.width, corridor]

theorem corridor_rectangular (n : Nat) : (corridor n).Rectangular := by
  refine ⟨?_, ?_, ?_⟩
  · intro row hrow
    rw [corridor_width]
    simp only [corridor, List.mem_cons, List.mem_singleton, List.not_mem_nil, or_false] at hrow
    rcases hrow with e | e | e <;> subst e <;> simp
  · simp [corridor, Map.height]
  · intro row hrow
    rw [corridor_width]
    simp only [corridor, List.mem_replicate] at hrow
    rw [hrow.2]
    simp

theorem corridor_zeroGradient (n : Nat) : (corridor n).ZeroGradient := by
  intro row hrow v hv
  simp only [corridor, List.mem_replicate] at hrow
  rw [hrow.2, List.mem_replicate] at hv
  exact hv.2

theorem corridor_border (n : Nat) : (corridor n).BorderObstacle := by
  intro r hr c hc hb hfree
  have := (corridor_free n (PointXY.mk (c : Int) (r : Int))).mp hfree
  rw [corridor_height] at hr hb
  rw [corridor_width] at hc hb
  simp only at this
  omega

theorem Reach.column_bound {s : Map} {a x : PointXY} {k : Nat} (h : Reach s a k x) :
    |x.x_ - a.x_| ≤ k := by
  induction h with
  | start _ => simp
  | step _ hw _ ih =>
    rw [inWindow_iff] at hw
    rw [abs_le] at ih ⊢
    push_cast
    omega

theorem corridor_reach (n k : Nat) (hk : k < n) :
    Reach (corridor n) (PointXY.mk 1 1) k (PointXY.mk ((k : Int) + 1) 1) := by
  induction k with
  | zero =>
    have hf : (corridor n).isFree (PointXY.mk 1 1) :=
      (corridor_free n _).mpr ⟨rfl, le_refl _, by simp only; omega⟩
    simpa using Reach.start hf
  | succ k ih =>
    refine Reach.step (ih (by omega)) ?_ ?_
    · rw [inWindow_iff]
      simp only
      omega
    · refine (corridor_free n _).mpr ⟨rfl, ?_, ?_⟩
      · simp only
        omega
      · simp only
        omega

theorem corridor_run (n g : Nat) (hg : 1 ≤ g) (hgn : g ≤ n) :
    ∃ s1, wavefront (corridor n) (PointXY.mk (n : Int) 1) (PointXY.mk 1 1) =
        Outcome.returned (n : Int) s1 ∧
      s1.mapAt (PointXY.mk (g : Int) 1) = some 0 ∧
      s1.waveAt (PointXY.mk (g : Int) 1) = some (g : Int) := by
  have hrect := corridor_rectangular n
  have hzero := corridor_zeroGradient n
  have hborder := corridor_border n
  have hgoal : (corridor n).isFree (PointXY.mk 1 1) :=
    (corridor_free n _).mpr ⟨rfl, le_refl _, by simp only; omega⟩
  have hcell : ∀ j : Nat, 1 ≤ j → j ≤ n →
      Reach (corridor n) (PointXY.mk 1 1) (j - 1) (PointXY.mk (j : Int) 1) := by
    intro j hj hjn
    have := corridor_reach n (j - 1) (by omega)
    have hc : (((j - 1 : Nat) : Int) + 1) = (j : Int) := by omega
    rw [hc] at this
    exact this
  have hlow : ∀ (j k : Nat), 1 ≤ j →
      Reach (corridor n) (PointXY.mk 1 1) k (PointXY.mk (j : Int) 1) → j - 1 ≤ k := by
    intro j k hj hr
    have := hr.column_bound
    rw [abs_le] at this
    simp only at this
    omega
  obtain ⟨R, s1, hrun⟩ :=
    wavefront_returns (PointXY.mk (n : Int) 1) hrect hzero hborder hgoal
  obtain ⟨m, perim1, hinv, hres⟩ := wavefront_bfs hrect hzero hgoal hrun
  rcases hres with ⟨hR, hmem⟩ | ⟨-, hno⟩
  · obtain ⟨hreach, hmin⟩ := hinv.perim_level ((hinv.perim_iff _).mp hmem)
    have hm1 : n - 1 ≤ m := hlow n m (by omega) hreach
    have hm2 : ¬ n - 1 < m := fun hlt => hmin (n - 1) hlt (hcell n (by omega) (le_refl _))
    have hm : m = n - 1 := by omega
    subst hm
    have hRn : R = (n : Int) := by omega
    subst hRn
    refine ⟨s1, hrun, ?_, ?_⟩
    · rw [mapAt_congr hinv.map_eq]
      exact (corridor_free n _).mpr ⟨rfl, by simp only; omega, by simp only; omega⟩
    · obtain ⟨v, hv, hv0⟩ := hinv.complete _ ((hcell g hg hgn).mono (by omega))
      obtain ⟨k, -, hkv, hrk, hmink⟩ := hinv.sound _ v hv hv0
      have hk1 : g - 1 ≤ k := hlow g k hg hrk
      have hk2 : ¬ g - 1 < k := fun hlt => hmink (g - 1) hlt (hcell g hg hgn)
      rw [hv, hkv]
      congr 1
      omega
  · exact absurd (hcell n (by omega) (le_refl _)) (hno _)

/-- Claim C16, at a failing input.  On the corridor of 21300000 Free cells, an
Obstacle-bordered rectangular grid with all-zero gradient, the run of
`wavefront` from the goal `(1,1)` at one end to the target at the other end
returns `R = 21300000` and leaves the Free cell `(21270000, 1)` with gradient
`g = 21270000`, so `0 ≤ g ≤ R` and the exact intensity `g * 200 / R` is `199`.
The `int` product `g * COLOR_FACTOR` of line 133 wraps to `-40967296`, its
quotient by the `float` of `R` truncates to `-1`, and the byte rendered for the
cell is the pure-white `255`. -/
theorem rendering_wraps_to_white :
    ((corridor 21300000).Rectangular ∧ (corridor 21300000).ZeroGradient ∧
      (corridor 21300000).BorderObstacle ∧ (corridor 21300000).isFree (PointXY.mk 1 1)) ∧
    (∃ s1, wavefront (corridor 21300000) (PointXY.mk 21300000 1) (PointXY.mk 1 1) =
        Outcome.returned 21300000 s1 ∧
      s1.mapAt (PointXY.mk 21270000 1) = some 0 ∧
      s1.waveAt (PointXY.mk 21270000 1) = some 21270000) ∧
    (21270000 * 200 : Int) / 21300000 = 199 ∧
    wrap32 (21270000 * COLOR_FACTOR) = -40967296 ∧
    floatDivTrunc (floatOfInt (-40967296)) (floatOfInt 21300000) = -1 ∧
    output_cell 0 21270000 21300000 = 255 :=
  ⟨⟨corridor_rectangular _, corridor_zeroGradient _, corridor_border _,
      (corridor_free _ _).mpr ⟨rfl, by decide, by decide⟩⟩,
    by simpa using corridor_run 21300000 21270000 (by decide) (by decide),
    by decide, by decide, by decide, by decide⟩

/-- Counterexample to claim C17 as stated: on `demoField`, the call of
`propagate_wave` with the perimeter `[(2,2)]`, whose window is in bounds, and
the non-zero ring value `3` has no result: the window holds nine Free cells with
gradient `0`, the centre included, and the frontier array has `DIRECTIONS * 1`
slots. -/
theorem fresh_centre_needs_nine_slots :
    ((3 : Int) ≠ 0 ∧ ∀ p ∈ [PointXY.mk 2 2], demoField.WindowInBounds p) ∧
      (visitAll 3 (windowCells [PointXY.mk 2 2]) (demoField, [])).map
        (fun r => r.2.length) = some 9 ∧
      DIRECTIONS * [PointXY.mk 2 2].length = 8 ∧
      propagate_wave demoField [PointXY.mk 2 2] 3 = none := by
  decide

/-- Claim C17, amended: for every state, every perimeter whose 3x3 windows are
in bounds and whose cells all have a non-zero gradient, so that the frontier
fits its array, and every non-zero ring value `g`, `propagate_wave` returns;
`map_` is unchanged; afterwards a cell has gradient `g` exactly when it had
gradient `g` before, or had gradient `0`, is Free and lies in the window of a
perimeter member; every cell that is not such a newly labelled cell keeps its
gradient; and the frontier holds exactly the cells whose gradient changed from
`0` to `g`. -/
theorem one_ring_expansion_exact (s : Map) (perimeter : List PointXY) (g : Int) (hg : g ≠ 0)
    (hin : ∀ p ∈ perimeter, s.WindowInBounds p) (hlab : s.AllLabeled perimeter) :
    ∃ s1 fr, propagate_wave s perimeter g = some (s1, fr) ∧ s1.map_ = s.map_ ∧
      (∀ x, s1.waveAt x = some g ↔
        (s.waveAt x = some g ∨
          (s.waveAt x = some 0 ∧ s.isFree x ∧ ∃ p ∈ perimeter, inWindow p x))) ∧
      (∀ x, ¬ (s.waveAt x = some 0 ∧ s.isFree x ∧ ∃ p ∈ perimeter, inWindow p x) →
        s1.waveAt x = s.waveAt x) ∧
      (∀ x, x ∈ fr ↔ (s.waveAt x = some 0 ∧ s1.waveAt x = some g)) := by
  obtain ⟨s1, fr, h⟩ := propagate_wave_total s perimeter g hin hlab
  obtain ⟨hnew, hold, -, hmem, -⟩ := propagate_wave_spec hg h
  have hkeep : ∀ x, ¬ (s.waveAt x = some 0 ∧ s.isFree x ∧ ∃ p ∈ perimeter, inWindow p x) →
      s1.waveAt x = s.waveAt x :=
    fun x hx => hold x (fun hC => hx ⟨hC.2.2, hC.2.1, hC.1⟩)
  have hzero_ne : ∀ x, s.waveAt x = some 0 → s.waveAt x ≠ some g := by
    intro x h0 hg1
    rw [h0] at hg1
    injection hg1 with hg1
    exact hg hg1.symm
  refine ⟨s1, fr, h, (propagate_wave_any h).1, ?_, hkeep, ?_⟩
  · intro x
    constructor
    · intro h1
      by_cases hC : s.waveAt x = some 0 ∧ s.isFree x ∧ ∃ p ∈ perimeter, inWindow p x
      · exact Or.inr hC
      · exact Or.inl ((hkeep x hC) ▸ h1)
    · rintro (h0 | ⟨h0, hfree, hp⟩)
      · rw [hkeep x (fun hC => hzero_ne x hC.1 h0)]
        exact h0
      · exact hnew x hp ⟨hfree, h0⟩
  · intro x
    rw [hmem x]
    constructor
    · rintro ⟨hp, hf⟩
      exact ⟨hf.2, hnew x hp hf⟩
    · rintro ⟨h0, h1⟩
      by_contra hC
      rw [hold x hC] at h1
      exact hzero_ne x h0 h1

/-- Claim C17, amended, at a concrete input: the perimeter `[(1,1)]` of
`demoRoomStart`, whose cell has gradient `1`, and ring value `2`. -/
theorem one_ring_expansion_exact_witness :
    ((2 : Int) ≠ 0 ∧ (∀ p ∈ [PointXY.mk 1 1], demoRoomStart.WindowInBounds p) ∧
      demoRoomStart.waveAt (PointXY.mk 1 1) = some 1) ∧
    ∃ s1 fr, propagate_wave demoRoomStart [PointXY.mk 1 1] 2 = some (s1, fr) ∧
      s1.map_ = demoRoomStart.map_ ∧
      (∀ x, s1.waveAt x = some 2 ↔
        (demoRoomStart.waveAt x = some 2 ∨
          (demoRoomStart.waveAt x = some 0 ∧ demoRoomStart.isFree x ∧
            ∃ p ∈ [PointXY.mk 1 1], inWindow p x))) ∧
      (∀ x, ¬ (demoRoomStart.waveAt x = some 0 ∧ demoRoomStart.isFree x ∧
          ∃ p ∈ [PointXY.mk 1 1], inWindow p x) →
        s1.waveAt x = demoRoomStart.waveAt x) ∧
      (∀ x, x ∈ fr ↔ (demoRoomStart.waveAt x = some 0 ∧ s1.waveAt x = some 2)) :=
  ⟨by decide,
    one_ring_expansion_exact demoRoomStart [PointXY.mk 1 1] 2 (by decide) (by decide)
      (fun p hp => ⟨1, by rw [List.mem_singleton.mp hp]; decide, by decide⟩)⟩

theorem minMoves_unique {s : Map} {a b : PointXY} {n m : Nat} (hn : MinMoves s a b n)
    (hm : MinMoves s a b m) : n = m := by
  rw [minMoves_iff] at hn hm
  have h1 : ¬ n < m := fun hlt => hm.2 n hlt hn.1
  have h2 : ¬ m < n := fun hlt => hn.2 m hlt hm.1
  omega

/-- Claim C18: on a rectangular grid with Obstacle border, all-zero initial
gradient and Free goal, `wavefront` returns, and in the state it returns every
cell with gradient label `k ≥ 1` is at 8-connected shortest-path distance
`k - 1` from the goal through Free cells; hence two cells with the same label
are at the same distance from the goal. -/
theorem label_is_distance_plus_one (s : Map) (player destination : PointXY)
    (hrect : s.Rectangular) (hzero : s.ZeroGradient) (hborder : s.BorderObstacle)
    (hgoal : s.isFree destination) :
    ∃ R s1, wavefront s player destination = Outcome.returned R s1 ∧
      (∀ (x : PointXY) (k : Int), s1.waveAt x = some k → 1 ≤ k →
        ∃ n : Nat, k = (n : Int) + 1 ∧ MinMoves s destination x n) ∧
      (∀ (x y : PointXY) (k : Int) (n m : Nat), s1.waveAt x = some k → s1.waveAt y = some k →
        1 ≤ k → MinMoves s destination x n → MinMoves s destination y m → n = m) := by
  obtain ⟨R, s1, hrun⟩ := wavefront_returns player hrect hzero hborder hgoal
  obtain ⟨m, perim1, hinv, -⟩ := wavefront_bfs hrect hzero hgoal hrun
  have hdist : ∀ (x : PointXY) (k : Int), s1.waveAt x = some k → 1 ≤ k →
      ∃ n : Nat, k = (n : Int) + 1 ∧ MinMoves s destination x n := by
    intro x k hk hk1
    obtain ⟨n, -, hn, hr, hmin⟩ := hinv.sound x k hk (by omega)
    exact ⟨n, hn, (minMoves_iff s destination x n).mpr ⟨hr, hmin⟩⟩
  refine ⟨R, s1, hrun, hdist, ?_⟩
  intro x y k n m hx hy hk hn hm
  obtain ⟨n1, e1, h1⟩ := hdist x k hx hk
  obtain ⟨m1, e2, h2⟩ := hdist y k hy hk
  have := minMoves_unique hn h1
  have := minMoves_unique hm h2
  omega

/-- Claim C18 at a concrete input: the run on `scenarioGap` from goal `(1,1)`
to target `(5,5)`. -/
theorem label_is_distance_plus_one_witness :
    (scenarioGap.Rectangular ∧ scenarioGap.ZeroGradient ∧ scenarioGap.BorderObstacle ∧
      scenarioGap.isFree (PointXY.mk 1 1)) ∧
    ∃ R s1, wavefront scenarioGap (PointXY.mk 5 5) (PointXY.mk 1 1) = Outcome.returned R s1 ∧
      (∀ (x : PointXY) (k : Int), s1.waveAt x = some k → 1 ≤ k →
        ∃ n : Nat, k = (n : Int) + 1 ∧ MinMoves scenarioGap (PointXY.mk 1 1) x n) ∧
      (∀ (x y : PointXY) (k : Int) (n m : Nat), s1.waveAt x = some k → s1.waveAt y = some k →
        1 ≤ k → MinMoves scenarioGap (PointXY.mk 1 1) x n →
        MinMoves scenarioGap (PointXY.mk 1 1) y m → n = m) :=
  ⟨by decide,
    label_is_distance_plus_one scenarioGap (PointXY.mk 5 5) (PointXY.mk 1 1) (by decide)
      (by decide) (by decide) (by decide)⟩

/-! ## Termination of the loop -/

theorem wavefrontLoop_succ (plyr : PointXY) (fuel : Nat) :
    ∀ (s : Map) (perim : List PointXY) (g : Int),
      wavefrontLoop plyr fuel s perim g ≠ Outcome.outOfFuel →
      wavefrontLoop plyr (fuel + 1) s perim g = wavefrontLoop plyr fuel s perim g := by
  induction fuel with
  | zero =>
    intro s perim g h
    by_cases hg : goal_reached perim plyr = true
    · rw [wavefrontLoop_reached hg, wavefrontLoop_reached hg]
    · exfalso
      apply h
      simp [wavefrontLoop, hg]
  | succ fuel ih =>
    intro s perim g h
    by_cases hg : goal_reached perim plyr = true
    · rw [wavefrontLoop_reached hg, wavefrontLoop_reached hg]
    · have hunf : ∀ n, wavefrontLoop plyr (n + 1) s perim g =
          match propagate_wave s perim (g + 1) with
          | none => Outcome.outOfBounds
          | some (s1, frontier) =>
            if goal_unreachable perim.length then Outcome.returned (-1) s1
            else wavefrontLoop plyr n s1 (swap_waves frontier frontier.length) (g + 1) := by
        intro n
        rw [wavefrontLoop]
        simp [hg]
      rw [hunf (fuel + 1), hunf fuel]
      rw [hunf fuel] at h
      cases hprop : propagate_wave s perim (g + 1) with
      | none => rfl
      | some r =>
        obtain ⟨s1, fr⟩ := r
        rw [hprop] at h
        simp only at h ⊢
        by_cases hun : goal_unreachable perim.length = true
        · simp [hun]
        · simp only [hun] at h ⊢
          exact ih _ _ _ h

theorem wavefrontLoop_more_fuel {plyr : PointXY} {fuel : Nat} {s : Map}
    {perim : List PointXY} {g : Int}
    (h : wavefrontLoop plyr fuel s perim g ≠ Outcome.outOfFuel) (k : Nat) :
    wavefrontLoop plyr (fuel + k) s perim g = wavefrontLoop plyr fuel s perim g := by
  induction k with
  | zero => rfl
  | succ k ih =>
    rw [← Nat.add_assoc, wavefrontLoop_succ plyr (fuel + k) s perim g (by rw [ih]; exact h), ih]

theorem wavefrontLoop_empty (plyr : PointXY) (fuel : Nat) (s : Map) (g : Int) :
    wavefrontLoop plyr (fuel + 1) s [] g = Outcome.returned (-1) s := by
  simp [wavefrontLoop, goal_reached, propagate_wave_nil, goal_unreachable]

theorem freshCount_decreases {t t1 : Map} {perim fr : List PointXY} {g : Int}
    (hrect : ∀ row ∈ t.map_, row.length = t.width) (hg : g ≠ 0)
    (h : propagate_wave t perim g = some (t1, fr)) (hfr : fr ≠ []) :
    t1.freshCount < t.freshCount := by
  obtain ⟨hnew, hold, -, hmem, -⟩ := propagate_wave_spec hg h
  have hmap := (propagate_wave_any h).1
  have hfresh : ∀ x, t1.Fresh x → t.Fresh x := by
    intro x hx
    refine ⟨(mapAt_congr hmap x) ▸ hx.1, ?_⟩
    by_cases hC : (∃ p ∈ perim, inWindow p x) ∧ t.Fresh x
    · exact hC.2.2
    · rw [← hold x hC]; exact hx.2
  unfold Map.freshCount
  apply Finset.card_lt_card
  have hh : t1.height = t.height := by unfold Map.height; rw [hmap]
  have hw : t1.width = t.width := by unfold Map.width; rw [hmap]
  refine ⟨?_, ?_⟩
  · intro rc hrc
    unfold Map.freshCells at hrc ⊢
    rw [Finset.mem_filter] at hrc ⊢
    rw [hh, hw] at hrc
    exact ⟨hrc.1, hfresh _ hrc.2⟩
  · intro hsup
    obtain ⟨x, hx⟩ := List.exists_mem_of_ne_nil fr hfr
    obtain ⟨hp, hf⟩ := (hmem x).mp hx
    have hsome : (cellAt t.map_ x.y_ x.x_).isSome := by
      have := hf.1
      unfold Map.mapAt at this
      rw [this]; rfl
    rw [cellAt_isSome_iff _ _ hrect] at hsome
    obtain ⟨hr, hrlt, hc, hclt⟩ := hsome
    have hxeq : PointXY.mk ((x.x_.toNat : Nat) : Int) ((x.y_.toNat : Nat) : Int) = x := by
      cases x
      simp only [PointXY.mk.injEq] at hr hc ⊢
      omega
    have hin : (x.y_.toNat, x.x_.toNat) ∈ t.freshCells := by
      unfold Map.freshCells
      rw [Finset.mem_filter]
      refine ⟨?_, by simp only; rw [hxeq]; exact hf⟩
      rw [Finset.mem_product, Finset.mem_range, Finset.mem_range]
      unfold Map.height
      omega
    have hin1 := hsup hin
    unfold Map.freshCells at hin1
    rw [Finset.mem_filter] at hin1
    have hbad := hin1.2
    simp only at hbad
    rw [hxeq] at hbad
    have := hnew x hp hf
    rw [hbad.2] at this
    injection this with this
    exact hg this.symm

theorem ringCalls_induct (plyr : PointXY) (P : Map → List PointXY → Int → Prop)
    (hstep : ∀ s perim g s1 fr, P s perim g →
      propagate_wave s perim (g + 1) = some (s1, fr) → P s1 fr (g + 1))
    (fuel : Nat) :
    ∀ (s : Map) (perim : List PointXY) (g : Int), P s perim g →
      ∀ call ∈ ringCalls plyr fuel s perim g, ∃ k, P call.1 call.2.1 k ∧ call.2.2 = k + 1 := by
  induction fuel with
  | zero =>
    intro s perim g _ call hcall
    simp [ringCalls] at hcall
  | succ fuel ih =>
    intro s perim g hP call hcall
    unfold ringCalls at hcall
    split at hcall
    · simp at hcall
    · rcases List.mem_cons.mp hcall with e | e
      · subst e
        exact ⟨g, hP, rfl⟩
      · cases hprop : propagate_wave s perim (g + 1) with
        | none => rw [hprop] at e; simp at e
        | some r =>
          obtain ⟨s1, fr⟩ := r
          rw [hprop] at e
          simp only at e
          split at e
          · simp at e
          · rw [swap_waves_length] at e
            exact ih s1 fr (g + 1) (hstep s perim g s1 fr hP hprop) call e

theorem RingInv.windows {s0 s : Map} {a : PointXY} {n : Nat} {perim : List PointXY}
    (hrect : s0.Rectangular) (hborder : s0.BorderObstacle) (hinv : RingInv s0 a n s perim) :
    ∀ p ∈ perim, s.WindowInBounds p := by
  intro p hp i hi
  have hfree := (hinv.perim_level ((hinv.perim_iff p).mp hp)).1.free
  have hm := hborder.window hrect hfree i hi
  exact ⟨by rw [mapAt_congr hinv.map_eq]; exact hm, hinv.defined _ hm⟩

/-- Claim C19: on a rectangular grid with Obstacle border, all-zero initial
gradient, Free goal and any target, the `while` loop of `wavefront` terminates:
the run returns, and the loop returns the same result under every larger
iteration budget.  Each call of `propagate_wave` made by the run returns and
either yields an empty frontier or strictly decreases the number of unlabelled
Free cells; and an iteration entered with an empty perimeter returns `-1`. -/
theorem wavefront_loop_terminates (s : Map) (player destination : PointXY)
    (hrect : s.Rectangular) (hborder : s.BorderObstacle) (hzero : s.ZeroGradient)
    (hgoal : s.isFree destination) :
    (∃ R s1, wavefront s player destination = Outcome.returned R s1 ∧
      ∀ wv, setAt s.wave_ destination.y_ destination.x_ 1 = some wv →
        ∀ fuel, zeroCount wv + 2 ≤ fuel →
          wavefrontLoop player fuel (Map.mk s.map_ wv)
            [PointXY.mk destination.x_ destination.y_] 1 = Outcome.returned R s1) ∧
    (∀ call ∈ wavefrontCalls s player destination,
      ∃ t1 fr, propagate_wave call.1 call.2.1 call.2.2 = some (t1, fr) ∧
        (fr = [] ∨ t1.freshCount < call.1.freshCount)) ∧
    (∀ (t : Map) (g : Int) (fuel : Nat),
      wavefrontLoop player (fuel + 1) t [] g = Outcome.returned (-1) t) := by
  refine ⟨?_, ?_, fun t g fuel => wavefrontLoop_empty player fuel t g⟩
  · obtain ⟨R, s1, hrun⟩ := wavefront_returns player hrect hzero hborder hgoal
    refine ⟨R, s1, hrun, ?_⟩
    intro wv hset fuel hfuel
    unfold wavefront at hrun
    rw [hset] at hrun
    simp only at hrun
    have hne : wavefrontLoop player (zeroCount wv + 2) (Map.mk s.map_ wv)
        [PointXY.mk destination.x_ destination.y_] 1 ≠ Outcome.outOfFuel := by
      rw [hrun]; simp
    have := wavefrontLoop_more_fuel hne (fuel - (zeroCount wv + 2))
    rw [Nat.add_sub_cancel' hfuel] at this
    rw [this, hrun]
  · intro call hcall
    unfold wavefrontCalls at hcall
    split at hcall
    · simp at hcall
    · rename_i wv hset
      obtain ⟨k, ⟨n, hk, hinv⟩, hcg⟩ := ringCalls_induct player
        (fun t perim k => ∃ n : Nat, k = (n : Int) + 1 ∧ RingInv s destination n t perim)
        (fun t perim k t1 fr hP hprop => by
          obtain ⟨n, hk, hinv⟩ := hP
          subst hk
          exact ⟨n + 1, by push_cast; ring, hinv.step hprop⟩)
        _ _ _ 1 ⟨0, by simp, RingInv.init hrect hzero hgoal hset⟩ call hcall
      obtain ⟨t1, fr, hprop⟩ :=
        propagate_wave_total call.1 call.2.1 call.2.2 (hinv.windows hrect hborder)
          hinv.allLabeled
      refine ⟨t1, fr, hprop, ?_⟩
      by_cases hfr : fr = []
      · exact Or.inl hfr
      · right
        have hw : call.1.width = s.width := by unfold Map.width; rw [hinv.map_eq]
        refine freshCount_decreases ?_ (by omega) hprop hfr
        intro row hrow
        rw [hinv.map_eq] at hrow
        rw [hw]
        exact hrect.1 row hrow

/-- Claim C19 at a concrete input: the run on `demoWall` from goal `(1,1)` to
the target `(3,3)` behind the wall. -/
theorem wavefront_loop_terminates_witness :
    (demoWall.Rectangular ∧ demoWall.BorderObstacle ∧ demoWall.ZeroGradient ∧
      demoWall.isFree (PointXY.mk 1 1)) ∧
    ((∃ R s1, wavefront demoWall (PointXY.mk 3 3) (PointXY.mk 1 1) = Outcome.returned R s1 ∧
      ∀ wv, setAt demoWall.wave_ 1 1 1 = some wv →
        ∀ fuel, zeroCount wv + 2 ≤ fuel →
          wavefrontLoop (PointXY.mk 3 3) fuel (Map.mk demoWall.map_ wv)
            [PointXY.mk 1 1] 1 = Outcome.returned R s1) ∧
    (∀ call ∈ wavefrontCalls demoWall (PointXY.mk 3 3) (PointXY.mk 1 1),
      ∃ t1 fr, propagate_wave call.1 call.2.1 call.2.2 = some (t1, fr) ∧
        (fr = [] ∨ t1.freshCount < call.1.freshCount)) ∧
    (∀ (t : Map) (g : Int) (fuel : Nat),
      wavefrontLoop (PointXY.mk 3 3) (fuel + 1) t [] g = Outcome.returned (-1) t)) :=
  ⟨by decide,
    wavefront_loop_terminates demoWall (PointXY.mk 3 3) (PointXY.mk 1 1) (by decide)
      (by decide) (by decide) (by decide)⟩

/-- Claim C20: for every state and every perimeter whose 3x3 windows are in
bounds and whose cells all have a non-zero gradient, `propagate_wave` returns a
frontier of at most `DIRECTIONS * size` cells, the capacity it allocated; and
every perimeter that a run of `wavefront` passes to `propagate_wave` has only
cells with a non-zero gradient. -/
theorem frontier_fits_its_buffer :
    (∀ (s : Map) (perimeter : List PointXY) (gradient : Int),
      (∀ p ∈ perimeter, s.WindowInBounds p) → s.AllLabeled perimeter →
      ∃ s1 fr, propagate_wave s perimeter gradient = some (s1, fr) ∧
        fr.length ≤ DIRECTIONS * perimeter.length) ∧
    (∀ (s : Map) (player destination : PointXY),
      ∀ call ∈ wavefrontCalls s player destination, call.1.AllLabeled call.2.1) := by
  constructor
  · intro s perimeter gradient hin hlab
    obtain ⟨s1, fr, h⟩ := propagate_wave_total s perimeter gradient hin hlab
    exact ⟨s1, fr, h, (propagate_wave_some.mp h).2⟩
  · intro s player destination call hcall
    unfold wavefrontCalls at hcall
    split at hcall
    · simp at hcall
    · rename_i wv hset
      obtain ⟨k, ⟨hk, hP⟩, -⟩ := ringCalls_induct player
        (fun t perim k => 1 ≤ k ∧ ∀ x ∈ perim, t.waveAt x = some k)
        (fun t perim k t1 fr hP hprop => by
          obtain ⟨hnew, -, -, hmem, -⟩ := propagate_wave_spec (by omega) hprop
          refine ⟨by omega, fun x hx => ?_⟩
          obtain ⟨hp, hf⟩ := (hmem x).mp hx
          exact hnew x hp hf)
        _ _ _ 1 ⟨le_refl _, by
          intro x hx
          rw [List.mem_singleton] at hx
          subst hx
          rw [waveAt_after_write (s := s) (t := Map.mk s.map_ wv) (x := destination) hset]
          simp⟩ call hcall
      intro p hp
      exact ⟨k, hP p hp, by omega⟩

/-- Claim C20 at a concrete input: the perimeter `[(2,2)]` of `demoRoomDone`,
whose cell has gradient `2`. -/
theorem frontier_fits_its_buffer_witness :
    (∀ p ∈ [PointXY.mk 2 2], demoRoomDone.WindowInBounds p) ∧
    ∃ s1 fr, propagate_wave demoRoomDone [PointXY.mk 2 2] 3 = some (s1, fr) ∧
      fr.length ≤ DIRECTIONS * [PointXY.mk 2 2].length :=
  ⟨by decide,
    frontier_fits_its_buffer.1 demoRoomDone [PointXY.mk 2 2] 3 (by decide)
      (fun p hp => ⟨2, by rw [List.mem_singleton.mp hp]; decide, by decide⟩)⟩

end Grid
